import Mathlib

/-!
Verification of the indicator / signal-detection engine and the scan loop of
the Didi15min scanner (src/main.py) against its natural-language specification.

The pandas/numpy floating-point values flowing through the indicator code are
modelled by `PF`: a finite value carried as an exact rational, or one of the
IEEE special values NaN, +Inf, -Inf.  NaN models both a missing rolling-window
value (pandas' NaN for incomplete windows) and the result of 0/0; arithmetic
and comparisons follow IEEE semantics (NaN propagates through arithmetic and
every ordered comparison with NaN is false).  The floating-point square root
inside `rolling(...).std()` is modelled by `Rat.sqrt`, the rational square
root approximation (exact on perfect squares; like float sqrt it is
nonnegative and is zero exactly on zero).  Zero is unsigned in this model;
division of a positive finite value by zero yields +Inf, matching the
reachable pandas cases (the rolling means that appear as denominators in the
source produce +0.0 when they vanish).
-/

/-- Model of one pandas float cell: NaN, +Inf, -Inf or a finite rational. -/
inductive PF : Type
  | nan : PF
  | inf : PF
  | ninf : PF
  | num : ℚ → PF
  deriving DecidableEq

namespace PF

/-- IEEE addition on `PF`: NaN propagates, Inf + (-Inf) is NaN. -/
def add : PF → PF → PF
  | nan, _ => nan
  | _, nan => nan
  | inf, ninf => nan
  | ninf, inf => nan
  | inf, _ => inf
  | _, inf => inf
  | ninf, _ => ninf
  | _, ninf => ninf
  | num a, num b => num (a + b)

/-- IEEE negation on `PF`. -/
def neg : PF → PF
  | nan => nan
  | inf => ninf
  | ninf => inf
  | num a => num (-a)

/-- IEEE subtraction on `PF`. -/
def sub (x y : PF) : PF := x.add y.neg

/-- IEEE multiplication on `PF`: NaN propagates, 0 * Inf is NaN. -/
def mul : PF → PF → PF
  | nan, _ => nan
  | _, nan => nan
  | inf, inf => inf
  | inf, ninf => ninf
  | ninf, inf => ninf
  | ninf, ninf => inf
  | inf, num b => if b = 0 then nan else if 0 < b then inf else ninf
  | num a, inf => if a = 0 then nan else if 0 < a then inf else ninf
  | ninf, num b => if b = 0 then nan else if 0 < b then ninf else inf
  | num a, ninf => if a = 0 then nan else if 0 < a then ninf else inf
  | num a, num b => num (a * b)

/-- IEEE division on `PF` with an unsigned zero: finite / 0 is ±Inf by the
sign of the numerator (0/0 is NaN), finite / ±Inf is 0, Inf / Inf is NaN. -/
def div : PF → PF → PF
  | nan, _ => nan
  | _, nan => nan
  | inf, inf => nan
  | inf, ninf => nan
  | ninf, inf => nan
  | ninf, ninf => nan
  | num _, inf => num 0
  | num _, ninf => num 0
  | inf, num b => if 0 ≤ b then inf else ninf
  | ninf, num b => if 0 ≤ b then ninf else inf
  | num a, num b =>
    if b = 0 then (if a = 0 then nan else if 0 < a then inf else ninf)
    else num (a / b)

/-- IEEE absolute value on `PF`. -/
def pabs : PF → PF
  | nan => nan
  | inf => inf
  | ninf => inf
  | num a => num |a|

/-- Float square root, modelled by the rational square root approximation;
negative inputs give NaN as in IEEE. -/
def psqrt : PF → PF
  | nan => nan
  | inf => inf
  | ninf => nan
  | num a => if a < 0 then nan else num (Rat.sqrt a)

/-- IEEE strict less-than as a boolean: any comparison with NaN is false. -/
def plt : PF → PF → Bool
  | nan, _ => false
  | _, nan => false
  | ninf, ninf => false
  | ninf, _ => true
  | _, ninf => false
  | inf, _ => false
  | num _, inf => true
  | num a, num b => decide (a < b)

/-- IEEE less-or-equal as a boolean: any comparison with NaN is false. -/
def ple : PF → PF → Bool
  | nan, _ => false
  | _, nan => false
  | ninf, _ => true
  | _, ninf => false
  | _, inf => true
  | inf, _ => false
  | num a, num b => decide (a ≤ b)

/-- Maximum of two non-NaN values (used after NaN filtering). -/
def pmax (x y : PF) : PF := if ple x y then y else x

/-- Sum of a list of `PF` values, as pandas computes a window sum
(left fold starting from 0; NaN poisons the sum). -/
def psum (l : List PF) : PF := l.foldl add (num 0)

end PF

/-- A negated `plt` against a non-NaN bound is `ple` from the bound, provided
the compared value is itself not NaN. -/
theorem PF.not_plt_iff_ple (x : PF) (t : ℚ) (hx : x ≠ PF.nan) :
    PF.plt x (PF.num t) = false ↔ PF.ple (PF.num t) x = true := by
  cases x with
  | nan => exact absurd rfl hx
  | inf => simp [PF.plt, PF.ple]
  | ninf => simp [PF.plt, PF.ple]
  | num a => simp [PF.plt, PF.ple, not_lt]

/-- A true `plt` against a non-NaN bound refutes `ple` from the bound. -/
theorem PF.ple_false_of_plt (x : PF) (t : ℚ) (h : PF.plt x (PF.num t) = true) :
    PF.ple (PF.num t) x = false := by
  cases x with
  | nan => simp [PF.plt] at h
  | inf => simp [PF.plt] at h
  | ninf => simp [PF.ple]
  | num a => simp [PF.plt] at h; simp [PF.ple]; linarith

/-! ## Series combinators (the pandas operations used by src/main.py)

A pandas Series over the bar index is a `List PF`.  All series produced in the
source share the `DataFrame` index, so elementwise binary operations are
`zipWith` over equal-length lists.
-/

/-- Trailing window of length `p` ending at index `i` (the window of
`rolling(p)` at row `i`, assuming `p ≤ i + 1`). -/
def winS (p i : ℕ) (s : List PF) : List PF := (s.take (i + 1)).drop (i + 1 - p)

/-- Model of `Series.rolling(p).mean()`: NaN while the window is incomplete,
otherwise the window sum divided by `p` (a NaN inside the window poisons the
sum, hence the mean, as in pandas). -/
def rollingMean (p : ℕ) (s : List PF) : List PF :=
  (List.range s.length).map fun i =>
    if i + 1 < p then PF.nan else PF.div (PF.psum (winS p i s)) (PF.num p)

/-- Model of `Series.rolling(p).sum()`. -/
def rollingSum (p : ℕ) (s : List PF) : List PF :=
  (List.range s.length).map fun i =>
    if i + 1 < p then PF.nan else PF.psum (winS p i s)

/-- Model of `Series.rolling(p).std()` (sample standard deviation, ddof = 1):
square root of the window's sum of squared deviations from the window mean,
divided by `p - 1`. -/
def rollingStd (p : ℕ) (s : List PF) : List PF :=
  (List.range s.length).map fun i =>
    if i + 1 < p then PF.nan
    else
      let w := winS p i s
      let m := PF.div (PF.psum w) (PF.num p)
      PF.psqrt (PF.div (PF.psum (w.map fun x => PF.mul (PF.sub x m) (PF.sub x m)))
        (PF.num (p - 1)))

/-- Model of `Series.shift()`: NaN at index 0, previous value elsewhere. -/
def shiftS (s : List PF) : List PF :=
  (List.range s.length).map fun i => if i = 0 then PF.nan else s.getD (i - 1) PF.nan

/-- Model of `Series.diff()`: NaN at index 0, difference with the previous
value elsewhere. -/
def diffS (s : List PF) : List PF :=
  (List.range s.length).map fun i =>
    if i = 0 then PF.nan else PF.sub (s.getD i PF.nan) (s.getD (i - 1) PF.nan)

/-- Model of `Series.fillna(0)`. -/
def fillna0 (s : List PF) : List PF :=
  s.map fun x => match x with | PF.nan => PF.num 0 | y => y

/-- Elementwise binary operation on two index-aligned series. -/
def seriesBin (f : PF → PF → PF) (s t : List PF) : List PF := List.zipWith f s t

/-- Scalar times series (`k * s` in pandas). -/
def smulS (k : ℚ) (s : List PF) : List PF := s.map fun x => PF.mul (PF.num k) x

/-- Elementwise `Series.abs()`. -/
def absS (s : List PF) : List PF := s.map PF.pabs

/-- Elementwise unary minus on a series. -/
def negS (s : List PF) : List PF := s.map PF.neg

/-- Elementwise series addition. -/
def addS (s t : List PF) : List PF := seriesBin PF.add s t

/-- Elementwise series subtraction. -/
def subS (s t : List PF) : List PF := seriesBin PF.sub s t

/-- Row maximum of the three concatenated columns in `true_range`, with
pandas' default `skipna=True`: NaN cells are dropped, the maximum of the
remaining cells is taken, and an all-NaN row gives NaN. -/
def max3skipna (a b c : PF) : PF :=
  match ([a, b, c].filter fun x => !(decide (x = PF.nan))) with
  | [] => PF.nan
  | x :: xs => xs.foldl PF.pmax x

/-! ## Data model and configuration -/

/-- One closed price bar, as parsed by `fetch_klines` (open time omitted:
the indicator code never reads it). -/
structure Candle : Type where
  copen : ℚ
  high : ℚ
  low : ℚ
  close : ℚ
  volume : ℚ
  deriving DecidableEq

/-- Default candle used to state `getD`-based indexing facts. -/
def candle0 : Candle := ⟨0, 0, 0, 0, 0⟩

/-- The close column of the frame. -/
def closes (df : List Candle) : List PF := df.map fun c => PF.num c.close

/-- The high column of the frame. -/
def highs (df : List Candle) : List PF := df.map fun c => PF.num c.high

/-- The low column of the frame. -/
def lows (df : List Candle) : List PF := df.map fun c => PF.num c.low

/-- Strategy parameter `BOLLINGER_PERIOD` from src/main.py. -/
def BOLLINGER_PERIOD : ℕ := 8

/-- Strategy parameter `BOLLINGER_STD` from src/main.py. -/
def BOLLINGER_STD : ℚ := 2

/-- Strategy parameter `ADX_PERIOD` from src/main.py. -/
def ADX_PERIOD : ℕ := 8

/-- Default of the env-configured `BOLLINGER_WIDTH_MIN_PCT` (0.015). -/
def BOLLINGER_WIDTH_MIN_PCT : ℚ := 15 / 1000

/-- Default of the env-configured `ADX_MIN` (15). -/
def ADX_MIN : ℚ := 15

/-! ## Indicators (section INDICADORES of src/main.py) -/

/-- `def sma(s, p): return s.rolling(p).mean()`. -/
def sma (s : List PF) (p : ℕ) : List PF := rollingMean p s

/-- `true_range(df)`: row maximum (skipping NaN) of `high - low`,
`(high - close.shift()).abs()` and `(low - close.shift()).abs()`. -/
def true_range (df : List Candle) : List PF :=
  let colA := subS (highs df) (lows df)
  let colB := absS (subS (highs df) (shiftS (closes df)))
  let colC := absS (subS (lows df) (shiftS (closes df)))
  (List.range df.length).map fun i =>
    max3skipna (colA.getD i PF.nan) (colB.getD i PF.nan) (colC.getD i PF.nan)

/-- `def atr(df, p=14): return true_range(df).rolling(p).mean()`. -/
def atr (df : List Candle) (p : ℕ := 14) : List PF := rollingMean p (true_range df)

/-- `bollinger_bands(series)`: returns `(upper, lower, width)` with
`ma = series.rolling(8).mean()`, `std = series.rolling(8).std()`,
`upper = ma + 2*std`, `lower = ma - 2*std`, `width = (upper - lower) / ma`. -/
def bollinger_bands (series : List PF) : List PF × List PF × List PF :=
  let ma := rollingMean BOLLINGER_PERIOD series
  let std := rollingStd BOLLINGER_PERIOD series
  let upper := addS ma (smulS BOLLINGER_STD std)
  let lower := subS ma (smulS BOLLINGER_STD std)
  (upper, lower, seriesBin PF.div (subS upper lower) ma)

/-- The Bollinger midline `ma` of `bollinger_bands`. -/
def bollMA (series : List PF) : List PF := rollingMean BOLLINGER_PERIOD series

/-- The Bollinger `width` component of `bollinger_bands`. -/
def bollWidth (series : List PF) : List PF := (bollinger_bands series).2.2

/-- `atr_v = true_range(df).rolling(ADX_PERIOD).mean()` inside `adx`. -/
def adxATR (df : List Candle) : List PF := rollingMean ADX_PERIOD (true_range df)

/-- `up = df["high"].diff()` inside `adx`. -/
def upMove (df : List Candle) : List PF := diffS (highs df)

/-- `down = -df["low"].diff()` inside `adx`. -/
def downMove (df : List Candle) : List PF := negS (diffS (lows df))

/-- `plus = up.where((up > down) & (up > 0), 0)` inside `adx`. -/
def plusDM (df : List Candle) : List PF :=
  seriesBin (fun u d => if PF.plt d u && PF.plt (PF.num 0) u then u else PF.num 0)
    (upMove df) (downMove df)

/-- `minus = down.where((down > up) & (down > 0), 0)` inside `adx`. -/
def minusDM (df : List Candle) : List PF :=
  seriesBin (fun u d => if PF.plt u d && PF.plt (PF.num 0) d then d else PF.num 0)
    (upMove df) (downMove df)

/-- `pdi = 100 * plus.rolling(ADX_PERIOD).sum() / atr_v` inside `adx`. -/
def pdiS (df : List Candle) : List PF :=
  seriesBin PF.div (smulS 100 (rollingSum ADX_PERIOD (plusDM df))) (adxATR df)

/-- `mdi = 100 * minus.rolling(ADX_PERIOD).sum() / atr_v` inside `adx`. -/
def mdiS (df : List Candle) : List PF :=
  seriesBin PF.div (smulS 100 (rollingSum ADX_PERIOD (minusDM df))) (adxATR df)

/-- `dx = 100 * (pdi - mdi).abs() / (pdi + mdi)` inside `adx`. -/
def dxS (df : List Candle) : List PF :=
  seriesBin PF.div (smulS 100 (absS (subS (pdiS df) (mdiS df)))) (addS (pdiS df) (mdiS df))

/-- `def adx(df): ... return dx.rolling(ADX_PERIOD).mean().fillna(0)`. -/
def adx (df : List Candle) : List PF := fillna0 (rollingMean ADX_PERIOD (dxS df))

/-! ## Signal logic (section LOGICA DE SINAL of src/main.py) -/

/-- Direction of a detected signal. -/
inductive Side : Type
  | LONG : Side
  | SHORT : Side
  deriving DecidableEq

/-- `triple_sma_cross(df)`: SMA(3)/SMA(8)/SMA(20) of close; LONG when the
strict chain `s3 > s8 > s20` holds at the last row but not at the previous
row, SHORT for the mirrored chain, `None` otherwise or when `len(df) < 3`.
Comparisons are IEEE: any comparison against a NaN SMA value is false. -/
def triple_sma_cross (df : List Candle) : Option Side :=
  let c := closes df
  let s3 := sma c 3
  let s8 := sma c 8
  let s20 := sma c 20
  if df.length < 3 then none
  else
    let n := df.length
    let a1 := s3.getD (n - 1) PF.nan
    let b1 := s8.getD (n - 1) PF.nan
    let c1 := s20.getD (n - 1) PF.nan
    let a2 := s3.getD (n - 2) PF.nan
    let b2 := s8.getD (n - 2) PF.nan
    let c2 := s20.getD (n - 2) PF.nan
    if (PF.plt b1 a1 && PF.plt c1 b1) && !(PF.plt b2 a2 && PF.plt c2 b2) then some Side.LONG
    else if (PF.plt a1 b1 && PF.plt b1 c1) && !(PF.plt a2 b2 && PF.plt b2 c2) then some Side.SHORT
    else none

/-- The record returned by `analyze_symbol` (its `symbol` field is the caller's
argument and is omitted here; `price` and `adx` are the float cells put into
the dict). -/
structure Signal : Type where
  side : Side
  price : PF
  adxv : PF
  deriving DecidableEq

/-- Body of `analyze_symbol` after the fetch: Bollinger width filter
(`width.iloc[-1] < BOLLINGER_WIDTH_MIN_PCT` rejects), ADX filter
(`adx_v < ADX_MIN` rejects), then the crossover; on success the returned
record carries the crossover side, the last close and the ADX value. -/
def analyze_symbol (df : List Candle) : Option Signal :=
  let n := df.length
  let width := (bollinger_bands (closes df)).2.2
  let adx_v := (adx df).getD (n - 1) PF.nan
  let cross := triple_sma_cross df
  if PF.plt (width.getD (n - 1) PF.nan) (PF.num BOLLINGER_WIDTH_MIN_PCT) then none
  else if PF.plt adx_v (PF.num ADX_MIN) then none
  else
    match cross with
    | none => none
    | some side => some ⟨side, (closes df).getD (n - 1) PF.nan, adx_v⟩

/-! ## Market data fetch (section DADOS DE MERCADO of src/main.py) -/

/-- One kline row of the provider payload, already parsed to numbers (the
twelve columns of `fetch_klines`; to_numeric coercion of well-formed payloads).
Only the five price/volume columns feed the engine. -/
structure RawKline : Type where
  open_time : ℕ
  ropen : ℚ
  rhigh : ℚ
  rlow : ℚ
  rclose : ℚ
  rvolume : ℚ
  close_time : ℕ
  qav : ℚ
  trades : ℕ
  tb_base : ℚ
  tb_quote : ℚ
  rignore : ℚ
  deriving DecidableEq

/-- The candle a payload row becomes after column selection and numeric
conversion in `fetch_klines`. -/
def parseRow (r : RawKline) : Candle := ⟨r.ropen, r.rhigh, r.rlow, r.rclose, r.rvolume⟩

/-- Tail of `fetch_klines`: build the frame from the payload rows and return
`df.iloc[:-1]` (drop the still-open trailing candle). -/
def fetch_klines (rows : List RawKline) : List Candle := (rows.map parseRow).dropLast

/-! ## Indexing and length helper lemmas -/

theorem getD_range_map {α : Type} (n i : ℕ) (f : ℕ → α) (d : α) (h : i < n) :
    (((List.range n).map f).getD i d) = f i := by
  rw [List.getD_eq_getElem?_getD, List.getElem?_map, List.getElem?_range h]
  rfl

theorem getD_map_num (l : List ℚ) (i : ℕ) (h : i < l.length) :
    ((l.map PF.num).getD i PF.nan) = PF.num (l.getD i 0) := by
  rw [List.getD_eq_getElem?_getD, List.getElem?_map, List.getD_eq_getElem?_getD,
    List.getElem?_eq_getElem h]
  rfl

theorem getD_zipWith (f : PF → PF → PF) (s t : List PF) (i : ℕ)
    (hs : i < s.length) (ht : i < t.length) :
    ((List.zipWith f s t).getD i PF.nan) = f (s.getD i PF.nan) (t.getD i PF.nan) := by
  rw [List.getD_eq_getElem?_getD, List.getElem?_zipWith, List.getElem?_eq_getElem hs,
    List.getElem?_eq_getElem ht, List.getD_eq_getElem?_getD, List.getD_eq_getElem?_getD,
    List.getElem?_eq_getElem hs, List.getElem?_eq_getElem ht]
  rfl

theorem getD_map_pf (f : PF → PF) (s : List PF) (i : ℕ) (h : i < s.length) :
    ((s.map f).getD i PF.nan) = f (s.getD i PF.nan) := by
  rw [List.getD_eq_getElem?_getD, List.getElem?_map, List.getD_eq_getElem?_getD,
    List.getElem?_eq_getElem h]
  rfl

theorem getD_mem_of_lt (s : List PF) (i : ℕ) (h : i < s.length) :
    s.getD i PF.nan ∈ s := by
  rw [List.getD_eq_getElem?_getD, List.getElem?_eq_getElem h]
  exact List.getElem_mem h

@[simp] theorem length_rollingMean (p : ℕ) (s : List PF) :
    (rollingMean p s).length = s.length := by simp [rollingMean]

@[simp] theorem length_rollingSum (p : ℕ) (s : List PF) :
    (rollingSum p s).length = s.length := by simp [rollingSum]

@[simp] theorem length_rollingStd (p : ℕ) (s : List PF) :
    (rollingStd p s).length = s.length := by simp [rollingStd]

@[simp] theorem length_shiftS (s : List PF) : (shiftS s).length = s.length := by simp [shiftS]

@[simp] theorem length_diffS (s : List PF) : (diffS s).length = s.length := by simp [diffS]

@[simp] theorem length_fillna0 (s : List PF) : (fillna0 s).length = s.length := by simp [fillna0]

@[simp] theorem length_seriesBin (f : PF → PF → PF) (s t : List PF) :
    (seriesBin f s t).length = min s.length t.length := by simp [seriesBin]

@[simp] theorem length_smulS (k : ℚ) (s : List PF) : (smulS k s).length = s.length := by
  simp [smulS]

@[simp] theorem length_absS (s : List PF) : (absS s).length = s.length := by simp [absS]

@[simp] theorem length_negS (s : List PF) : (negS s).length = s.length := by simp [negS]

@[simp] theorem length_addS (s t : List PF) : (addS s t).length = min s.length t.length := by
  simp [addS]

@[simp] theorem length_subS (s t : List PF) : (subS s t).length = min s.length t.length := by
  simp [subS]

@[simp] theorem length_closes (df : List Candle) : (closes df).length = df.length := by
  simp [closes]

@[simp] theorem length_highs (df : List Candle) : (highs df).length = df.length := by
  simp [highs]

@[simp] theorem length_lows (df : List Candle) : (lows df).length = df.length := by
  simp [lows]

@[simp] theorem length_true_range (df : List Candle) :
    (true_range df).length = df.length := by simp [true_range]

@[simp] theorem length_adxATR (df : List Candle) : (adxATR df).length = df.length := by
  simp [adxATR]

@[simp] theorem length_upMove (df : List Candle) : (upMove df).length = df.length := by
  simp [upMove]

@[simp] theorem length_downMove (df : List Candle) : (downMove df).length = df.length := by
  simp [downMove]

@[simp] theorem length_plusDM (df : List Candle) : (plusDM df).length = df.length := by
  simp [plusDM]

@[simp] theorem length_minusDM (df : List Candle) : (minusDM df).length = df.length := by
  simp [minusDM]

@[simp] theorem length_pdiS (df : List Candle) : (pdiS df).length = df.length := by
  simp [pdiS]

@[simp] theorem length_mdiS (df : List Candle) : (mdiS df).length = df.length := by
  simp [mdiS]

@[simp] theorem length_dxS (df : List Candle) : (dxS df).length = df.length := by
  simp [dxS]

@[simp] theorem length_adx (df : List Candle) : (adx df).length = df.length := by
  simp [adx]

@[simp] theorem length_bollMA (s : List PF) : (bollMA s).length = s.length := by
  simp [bollMA]

@[simp] theorem length_bollWidth (s : List PF) : (bollWidth s).length = s.length := by
  simp [bollWidth, bollinger_bands]

/-! ## Window and sum lemmas -/

/-- Trailing rational window, used to state facts about full windows. -/
def winQ (p i : ℕ) (l : List ℚ) : List ℚ := (l.take (i + 1)).drop (i + 1 - p)

theorem winS_map_num (p i : ℕ) (l : List ℚ) :
    winS p i (l.map PF.num) = (winQ p i l).map PF.num := by
  simp [winS, winQ, List.map_take, List.map_drop]

theorem winS_subset (p i : ℕ) (s : List PF) : winS p i s ⊆ s :=
  fun _ hx => List.take_subset _ _ (List.drop_subset _ _ hx)

theorem winS_length (p i : ℕ) (s : List PF) (hi : i < s.length) (hp : p ≤ i + 1) :
    (winS p i s).length = p := by
  simp [winS]
  omega

theorem winQ_length (p i : ℕ) (l : List ℚ) (hi : i < l.length) (hp : p ≤ i + 1) :
    (winQ p i l).length = p := by
  simp [winQ]
  omega

theorem getD_mem_winS (p i j : ℕ) (s : List PF) (hj : j < s.length)
    (h1 : i + 1 - p ≤ j) (h2 : j ≤ i) : s.getD j PF.nan ∈ winS p i s := by
  have hlen : j - (i + 1 - p) < (winS p i s).length := by
    simp [winS]
    omega
  have : (winS p i s)[j - (i + 1 - p)] = s[j] := by
    simp only [winS]
    rw [List.getElem_drop, List.getElem_take]
    congr 1
    omega
  rw [List.getD_eq_getElem?_getD, List.getElem?_eq_getElem hj]
  have := this ▸ List.getElem_mem hlen
  simpa using this

theorem psum_append_nan (l t : List PF) : PF.psum (l ++ PF.nan :: t) = PF.nan := by
  have hacc : ∀ (r : List PF), r.foldl PF.add PF.nan = PF.nan := by
    intro r
    induction r with
    | nil => rfl
    | cons x xs ih => simpa [PF.add] using ih
  have : ∀ (l : List PF) (a : PF), (l ++ PF.nan :: t).foldl PF.add a = PF.nan := by
    intro l
    induction l with
    | nil =>
      intro a
      simp only [List.nil_append, List.foldl_cons]
      have : PF.add a PF.nan = PF.nan := by cases a <;> rfl
      rw [this]
      exact hacc t
    | cons x xs ih =>
      intro a
      simpa using ih (PF.add a x)
  exact this l _

theorem psum_eq_nan_of_mem (l : List PF) (h : PF.nan ∈ l) : PF.psum l = PF.nan := by
  obtain ⟨a, b, rfl⟩ := List.append_of_mem h
  exact psum_append_nan a b

theorem psum_map_num (l : List ℚ) : PF.psum (l.map PF.num) = PF.num l.sum := by
  have : ∀ (l : List ℚ) (a : ℚ),
      (l.map PF.num).foldl PF.add (PF.num a) = PF.num (a + l.sum) := by
    intro l
    induction l with
    | nil => intro a; simp
    | cons x xs ih =>
      intro a
      simp only [List.map_cons, List.foldl_cons, PF.add]
      rw [ih (a + x)]
      congr 1
      simp [List.sum_cons]
      ring
  simpa using this l 0

/-! ## Value-shape predicates for the ADX chain -/

/-- A nonnegative finite cell. -/
def isNN (x : PF) : Prop := ∃ t : ℚ, 0 ≤ t ∧ x = PF.num t

/-- NaN or a nonnegative finite cell. -/
def isNNN (x : PF) : Prop := x = PF.nan ∨ isNN x

/-- NaN, +Inf or a nonnegative finite cell. -/
def isNNI (x : PF) : Prop := x = PF.nan ∨ x = PF.inf ∨ isNN x

theorem psum_isNN (l : List PF) (h : ∀ x ∈ l, isNN x) : isNN (PF.psum l) := by
  have : ∀ (l : List PF) (a : ℚ), 0 ≤ a → (∀ x ∈ l, isNN x) →
      isNN (l.foldl PF.add (PF.num a)) := by
    intro l
    induction l with
    | nil => intro a ha _; exact ⟨a, ha, rfl⟩
    | cons x xs ih =>
      intro a ha hall
      obtain ⟨t, ht, rfl⟩ := hall x (List.mem_cons_self x xs)
      simp only [List.foldl_cons, PF.add]
      exact ih (a + t) (by linarith) (fun y hy => hall y (List.mem_cons_of_mem _ hy))
  exact this l 0 le_rfl h

theorem psum_isNNI (l : List PF) (h : ∀ x ∈ l, isNNI x) : isNNI (PF.psum l) := by
  have step : ∀ (y : PF) (x : PF), isNNI x → (y = PF.inf ∨ isNN y) →
      (PF.add y x = PF.nan ∨ PF.add y x = PF.inf ∨ isNN (PF.add y x)) := by
    intro y x hx hy
    rcases hy with rfl | ⟨a, ha, rfl⟩
    · rcases hx with rfl | rfl | ⟨b, hb, rfl⟩
      · exact Or.inl rfl
      · exact Or.inr (Or.inl rfl)
      · exact Or.inr (Or.inl rfl)
    · rcases hx with rfl | rfl | ⟨b, hb, rfl⟩
      · exact Or.inl rfl
      · exact Or.inr (Or.inl rfl)
      · exact Or.inr (Or.inr ⟨a + b, by linarith, rfl⟩)
  have : ∀ (l : List PF) (y : PF), (y = PF.inf ∨ isNN y) → (∀ x ∈ l, isNNI x) →
      isNNI (l.foldl PF.add y) := by
    intro l
    induction l with
    | nil =>
      intro y hy _
      rcases hy with rfl | hy
      · exact Or.inr (Or.inl rfl)
      · exact Or.inr (Or.inr hy)
    | cons x xs ih =>
      intro y hy hall
      rcases step y x (hall x (List.mem_cons_self x xs)) hy with h1 | h1 | h1
      · rw [List.foldl_cons, h1]
        left
        have hacc : ∀ (r : List PF), r.foldl PF.add PF.nan = PF.nan := by
          intro r
          induction r with
          | nil => rfl
          | cons z zs ihz => simpa [PF.add] using ihz
        exact hacc xs
      · rw [List.foldl_cons, h1]
        exact ih PF.inf (Or.inl rfl) (fun z hz => hall z (List.mem_cons_of_mem _ hz))
      · rw [List.foldl_cons]
        exact ih _ (Or.inr h1) (fun z hz => hall z (List.mem_cons_of_mem _ hz))
  exact this l (PF.num 0) (Or.inr ⟨0, le_rfl, rfl⟩) h

/-! ## Rolling-window element values -/

theorem rollingMean_getD (p i : ℕ) (s : List PF) (h : i < s.length) :
    (rollingMean p s).getD i PF.nan =
      if i + 1 < p then PF.nan else PF.div (PF.psum (winS p i s)) (PF.num p) := by
  unfold rollingMean
  exact getD_range_map _ _ _ _ h

theorem rollingSum_getD (p i : ℕ) (s : List PF) (h : i < s.length) :
    (rollingSum p s).getD i PF.nan =
      if i + 1 < p then PF.nan else PF.psum (winS p i s) := by
  unfold rollingSum
  exact getD_range_map _ _ _ _ h

theorem rollingStd_getD (p i : ℕ) (s : List PF) (h : i < s.length) :
    (rollingStd p s).getD i PF.nan =
      if i + 1 < p then PF.nan
      else
        PF.psqrt (PF.div (PF.psum ((winS p i s).map fun x =>
            PF.mul (PF.sub x (PF.div (PF.psum (winS p i s)) (PF.num p)))
              (PF.sub x (PF.div (PF.psum (winS p i s)) (PF.num p)))))
          (PF.num (p - 1))) := by
  unfold rollingStd
  exact getD_range_map _ _ _ _ h

/-- Mean of a complete rational window is the exact rational mean. -/
theorem rollingMean_num (p i : ℕ) (l : List ℚ) (hi : i < l.length)
    (hp : p ≤ i + 1) (hp1 : 1 ≤ p) :
    (rollingMean p (l.map PF.num)).getD i PF.nan = PF.num ((winQ p i l).sum / p) := by
  rw [rollingMean_getD p i _ (by simpa using hi), if_neg (by omega), winS_map_num,
    psum_map_num, PF.div]
  rw [if_neg (by exact_mod_cast Nat.one_le_iff_ne_zero.mp hp1)]

/-! ## Small PF computation lemmas -/

@[simp] theorem PF.nan_add (x : PF) : PF.add PF.nan x = PF.nan := by cases x <;> rfl

@[simp] theorem PF.add_nan (x : PF) : PF.add x PF.nan = PF.nan := by cases x <;> rfl

@[simp] theorem PF.add_num_num (a b : ℚ) :
    PF.add (PF.num a) (PF.num b) = PF.num (a + b) := rfl

@[simp] theorem PF.sub_num_num (a b : ℚ) :
    PF.sub (PF.num a) (PF.num b) = PF.num (a - b) := by
  simp [PF.sub, PF.neg, PF.add]
  ring

@[simp] theorem PF.nan_sub (x : PF) : PF.sub PF.nan x = PF.nan := by cases x <;> rfl

@[simp] theorem PF.sub_nan (x : PF) : PF.sub x PF.nan = PF.nan := by cases x <;> rfl

@[simp] theorem PF.mul_num_num (a b : ℚ) :
    PF.mul (PF.num a) (PF.num b) = PF.num (a * b) := rfl

@[simp] theorem PF.nan_mul (x : PF) : PF.mul PF.nan x = PF.nan := by cases x <;> rfl

@[simp] theorem PF.mul_nan (x : PF) : PF.mul x PF.nan = PF.nan := by cases x <;> rfl

@[simp] theorem PF.nan_div (x : PF) : PF.div PF.nan x = PF.nan := by cases x <;> rfl

@[simp] theorem PF.div_nan (x : PF) : PF.div x PF.nan = PF.nan := by cases x <;> rfl

@[simp] theorem PF.pabs_nan : PF.pabs PF.nan = PF.nan := rfl

@[simp] theorem PF.pabs_num (a : ℚ) : PF.pabs (PF.num a) = PF.num |a| := rfl

@[simp] theorem PF.neg_num (a : ℚ) : PF.neg (PF.num a) = PF.num (-a) := rfl

@[simp] theorem PF.neg_nan : PF.neg PF.nan = PF.nan := rfl

theorem PF.div_num_num (a b : ℚ) (hb : b ≠ 0) :
    PF.div (PF.num a) (PF.num b) = PF.num (a / b) := by
  simp [PF.div, hb]

theorem PF.pmax_num_num (a b : ℚ) :
    PF.pmax (PF.num a) (PF.num b) = PF.num (max a b) := by
  simp only [PF.pmax, PF.ple]
  by_cases h : a ≤ b
  · simp [h, max_eq_right h]
  · simp [h, max_eq_left (le_of_not_le h)]

theorem max3skipna_num_nan_nan (a : ℚ) :
    max3skipna (PF.num a) PF.nan PF.nan = PF.num a := by
  simp [max3skipna]

theorem max3skipna_num_num_num (a b c : ℚ) :
    max3skipna (PF.num a) (PF.num b) (PF.num c) = PF.num (max (max a b) c) := by
  simp [max3skipna, List.filter, PF.pmax_num_num]

/-! ## Column getters -/

theorem getD_highs (df : List Candle) (i : ℕ) (h : i < df.length) :
    (highs df).getD i PF.nan = PF.num ((df.getD i candle0).high) := by
  unfold highs
  rw [List.getD_eq_getElem?_getD, List.getElem?_map, List.getD_eq_getElem?_getD,
    List.getElem?_eq_getElem h]
  rfl

theorem getD_lows (df : List Candle) (i : ℕ) (h : i < df.length) :
    (lows df).getD i PF.nan = PF.num ((df.getD i candle0).low) := by
  unfold lows
  rw [List.getD_eq_getElem?_getD, List.getElem?_map, List.getD_eq_getElem?_getD,
    List.getElem?_eq_getElem h]
  rfl

theorem getD_closes (df : List Candle) (i : ℕ) (h : i < df.length) :
    (closes df).getD i PF.nan = PF.num ((df.getD i candle0).close) := by
  unfold closes
  rw [List.getD_eq_getElem?_getD, List.getElem?_map, List.getD_eq_getElem?_getD,
    List.getElem?_eq_getElem h]
  rfl

theorem shiftS_getD_zero (s : List PF) (h : 0 < s.length) :
    (shiftS s).getD 0 PF.nan = PF.nan := by
  unfold shiftS
  rw [getD_range_map _ _ _ _ h]
  simp

theorem shiftS_getD_succ (s : List PF) (i : ℕ) (h : i < s.length) (h1 : 1 ≤ i) :
    (shiftS s).getD i PF.nan = s.getD (i - 1) PF.nan := by
  unfold shiftS
  rw [getD_range_map _ _ _ _ h]
  simp [Nat.one_le_iff_ne_zero.mp h1]

theorem true_range_getD (df : List Candle) (i : ℕ) (h : i < df.length) :
    (true_range df).getD i PF.nan =
      max3skipna ((subS (highs df) (lows df)).getD i PF.nan)
        ((absS (subS (highs df) (shiftS (closes df)))).getD i PF.nan)
        ((absS (subS (lows df) (shiftS (closes df)))).getD i PF.nan) := by
  unfold true_range
  exact getD_range_map _ _ _ _ h

theorem getD_subS (s t : List PF) (i : ℕ) (hs : i < s.length) (ht : i < t.length) :
    (subS s t).getD i PF.nan = PF.sub (s.getD i PF.nan) (t.getD i PF.nan) := by
  unfold subS seriesBin
  exact getD_zipWith _ _ _ _ hs ht

theorem getD_addS (s t : List PF) (i : ℕ) (hs : i < s.length) (ht : i < t.length) :
    (addS s t).getD i PF.nan = PF.add (s.getD i PF.nan) (t.getD i PF.nan) := by
  unfold addS seriesBin
  exact getD_zipWith _ _ _ _ hs ht

theorem getD_absS (s : List PF) (i : ℕ) (h : i < s.length) :
    (absS s).getD i PF.nan = PF.pabs (s.getD i PF.nan) := by
  unfold absS
  exact getD_map_pf _ _ _ h

theorem getD_negS (s : List PF) (i : ℕ) (h : i < s.length) :
    (negS s).getD i PF.nan = PF.neg (s.getD i PF.nan) := by
  unfold negS
  exact getD_map_pf _ _ _ h

theorem getD_smulS (k : ℚ) (s : List PF) (i : ℕ) (h : i < s.length) :
    (smulS k s).getD i PF.nan = PF.mul (PF.num k) (s.getD i PF.nan) := by
  unfold smulS
  exact getD_map_pf _ _ _ h

theorem getD_seriesBin_div (s t : List PF) (i : ℕ) (hs : i < s.length) (ht : i < t.length) :
    (seriesBin PF.div s t).getD i PF.nan = PF.div (s.getD i PF.nan) (t.getD i PF.nan) := by
  unfold seriesBin
  exact getD_zipWith _ _ _ _ hs ht

/-! ## Claim C10: sma definition -/

/-- C10: for every value series and period p ≥ 1, `sma(values, p)` at a valid
index i is absent (NaN) when i < p - 1, and otherwise equals the arithmetic
mean of the p trailing values ending at i. -/
theorem C10_sma_spec (l : List ℚ) (p i : ℕ) (hp : 1 ≤ p) (hi : i < l.length) :
    (sma (l.map PF.num) p).getD i PF.nan =
      if i < p - 1 then PF.nan
      else PF.num (((l.take (i + 1)).drop (i + 1 - p)).sum / p) := by
  by_cases hc : i + 1 < p
  · unfold sma
    rw [rollingMean_getD p i _ (by simpa using hi), if_pos hc, if_pos (by omega)]
  · unfold sma
    rw [rollingMean_num p i l hi (by omega) hp, if_neg (by omega)]
    rfl

/-- Witness for C10 at the series [1, 2, 3, 4] with period 3 and index 3. -/
theorem C10_sma_spec_witness :
    (sma ([(1 : ℚ), 2, 3, 4].map PF.num) 3).getD 3 PF.nan =
      if 3 < 3 - 1 then PF.nan
      else PF.num ((([(1 : ℚ), 2, 3, 4].take 4).drop 1).sum / 3) :=
  C10_sma_spec [1, 2, 3, 4] 3 3 (by decide) (by decide)

/-! ## Claim C8: true range (corrected)

The spec asserts that `trueRange` is undefined (absent) at index 0.  The code
computes the row maximum with pandas' default `skipna=True`, so at index 0,
where the two shifted columns are NaN, the maximum of the remaining column
`high - low` is returned: `true_range` at index 0 is `high[0] - low[0]`, not
absent.  At every index i ≥ 1 the claim's formula holds.
-/

/-- Counterexample for C8 as stated: on a single-candle frame with high 10 and
low 3, `true_range` at index 0 is the number 7, not absent. -/
theorem C8_counterexample :
    (true_range [(⟨5, 10, 3, 4, 0⟩ : Candle)]).getD 0 PF.nan = PF.num 7 ∧
      (true_range [(⟨5, 10, 3, 4, 0⟩ : Candle)]).getD 0 PF.nan ≠ PF.nan := by
  have key : (true_range [(⟨5, 10, 3, 4, 0⟩ : Candle)]).getD 0 PF.nan = PF.num 7 := by
    rw [true_range_getD _ 0 (by simp)]
    rw [getD_subS _ _ _ (by simp) (by simp)]
    rw [getD_absS _ _ (by simp), getD_absS _ _ (by simp)]
    rw [getD_subS _ _ _ (by simp) (by simp), getD_subS _ _ _ (by simp) (by simp)]
    rw [shiftS_getD_zero _ (by simp)]
    rw [getD_highs _ 0 (by simp), getD_lows _ 0 (by simp)]
    rw [PF.sub_num_num, PF.sub_nan, PF.sub_nan, PF.pabs_nan, max3skipna_num_nan_nan]
    norm_num [candle0]
  refine ⟨key, ?_⟩
  rw [key]
  simp

/-- C8 (amended): at every index i ≥ 1, `true_range` equals
max(high[i]-low[i], |high[i]-close[i-1]|, |low[i]-close[i-1]|); at index 0,
where there is no prior close, it is not absent but equals high[0]-low[0]
(the NaN-skipping row maximum keeps the one defined column). -/
theorem C8_true_range (df : List Candle) (i : ℕ) (hi : i < df.length) :
    (1 ≤ i → (true_range df).getD i PF.nan =
      PF.num (max (max ((df.getD i candle0).high - (df.getD i candle0).low)
          |(df.getD i candle0).high - (df.getD (i - 1) candle0).close|)
        |(df.getD i candle0).low - (df.getD (i - 1) candle0).close|))
    ∧ (true_range df).getD 0 PF.nan =
        PF.num ((df.getD 0 candle0).high - (df.getD 0 candle0).low) := by
  have h0 : 0 < df.length := Nat.lt_of_le_of_lt (Nat.zero_le i) hi
  constructor
  · intro h1
    rw [true_range_getD df i hi]
    rw [getD_subS _ _ _ (by simpa using hi) (by simpa using hi)]
    rw [getD_absS _ _ (by simp; omega), getD_absS _ _ (by simp; omega)]
    rw [getD_subS _ _ _ (by simpa using hi) (by simpa using hi),
      getD_subS _ _ _ (by simpa using hi) (by simpa using hi)]
    rw [shiftS_getD_succ _ _ (by simpa using hi) h1]
    rw [getD_highs df i hi, getD_lows df i hi, getD_closes df (i - 1) (by omega)]
    rw [PF.sub_num_num, PF.sub_num_num, PF.sub_num_num, PF.pabs_num, PF.pabs_num]
    exact max3skipna_num_num_num _ _ _
  · rw [true_range_getD df 0 h0]
    rw [getD_subS _ _ _ (by simpa using h0) (by simpa using h0)]
    rw [getD_absS _ _ (by simp; omega), getD_absS _ _ (by simp; omega)]
    rw [getD_subS _ _ _ (by simpa using h0) (by simpa using h0),
      getD_subS _ _ _ (by simpa using h0) (by simpa using h0)]
    rw [shiftS_getD_zero _ (by simpa using h0)]
    rw [getD_highs df 0 h0, getD_lows df 0 h0]
    rw [PF.sub_num_num, PF.sub_nan, PF.sub_nan, PF.pabs_nan]
    exact max3skipna_num_nan_nan _

/-- Witness for C8 (amended) on a two-candle frame at index 1. -/
theorem C8_true_range_witness :
    (1 ≤ 1 → (true_range [(⟨1, 4, 1, 2, 0⟩ : Candle), ⟨2, 9, 5, 6, 0⟩]).getD 1 PF.nan =
      PF.num (max (max (9 - 5) |9 - (2 : ℚ)|) |5 - (2 : ℚ)|))
    ∧ (true_range [(⟨1, 4, 1, 2, 0⟩ : Candle), ⟨2, 9, 5, 6, 0⟩]).getD 0 PF.nan =
        PF.num (4 - 1) :=
  C8_true_range [⟨1, 4, 1, 2, 0⟩, ⟨2, 9, 5, 6, 0⟩] 1 (by decide)

/-! ## Claim C9: the still-open trailing bar is dropped -/

/-- C9: `fetch_klines` always drops the provider's trailing (still-open) bar:
appending any final row to a payload yields exactly the parsed candles of the
other rows, and the returned series is always one shorter than the payload. -/
theorem C9_fetch_drops_last :
    (∀ (rows : List RawKline) (lastRow : RawKline),
        fetch_klines (rows ++ [lastRow]) = rows.map parseRow)
    ∧ (∀ rows : List RawKline, (fetch_klines rows).length = rows.length - 1) := by
  constructor
  · intro rows lastRow
    unfold fetch_klines
    rw [List.map_append]
    simp
  · intro rows
    unfold fetch_klines
    simp

/-! ## Claim C5: crossover edge rule

Specification-side definitions (following the spec's words in §4.2): the SMA
value as a partial rational, and the strict triple orderings.  The claim is a
refinement statement comparing `triple_sma_cross` (from the source) against
these.
-/

/-- The code-side rational SMA value of the close series at index i (only
meaningful when the window is complete). -/
def smaQ (df : List Candle) (p i : ℕ) : ℚ :=
  (((df.map Candle.close).take (i + 1)).drop (i + 1 - p)).sum / p

/-- Specification-side SMA: the arithmetic mean of the `p` trailing closes
ending at i, absent when fewer than `p` values precede i or i is out of
range. -/
def smaAt (df : List Candle) (p i : ℕ) : Option ℚ :=
  if p ≤ i + 1 ∧ i < df.length then some (smaQ df p i) else none

/-- Specification-side strict LONG ordering at index i: the fast, medium and
slow SMAs are all defined and `fast > medium > slow` strictly. -/
def longOrder (df : List Candle) (i : ℕ) : Prop :=
  ∃ x y z, smaAt df 3 i = some x ∧ smaAt df 8 i = some y ∧ smaAt df 20 i = some z ∧
    y < x ∧ z < y

/-- Specification-side strict SHORT ordering at index i: the mirror
`fast < medium < slow`. -/
def shortOrder (df : List Candle) (i : ℕ) : Prop :=
  ∃ x y z, smaAt df 3 i = some x ∧ smaAt df 8 i = some y ∧ smaAt df 20 i = some z ∧
    x < y ∧ y < z

theorem closes_eq_map_num (df : List Candle) :
    closes df = (df.map Candle.close).map PF.num := by
  simp [closes, List.map_map]

theorem sma_pf_getD (df : List Candle) (p i : ℕ) (hp : 1 ≤ p) (hi : i < df.length) :
    (sma (closes df) p).getD i PF.nan =
      if p ≤ i + 1 then PF.num (smaQ df p i) else PF.nan := by
  rw [closes_eq_map_num]
  by_cases hc : p ≤ i + 1
  · rw [if_pos hc]
    unfold sma
    rw [rollingMean_num p i _ (by simpa using hi) hc hp]
    rfl
  · rw [if_neg hc]
    unfold sma
    rw [rollingMean_getD p i _ (by simpa using hi), if_pos (by omega)]

/-- PF strict comparison is asymmetric. -/
theorem PF.plt_asymm (x y : PF) (h : PF.plt x y = true) : PF.plt y x = false := by
  cases x <;> cases y <;> simp [PF.plt] at h ⊢
  linarith

/-- The boolean LONG chain condition of `triple_sma_cross` at index i agrees
with the specification-side strict ordering. -/
theorem long_cond_iff (df : List Candle) (i : ℕ) (hi : i < df.length) :
    ((PF.plt ((sma (closes df) 8).getD i PF.nan) ((sma (closes df) 3).getD i PF.nan)
      && PF.plt ((sma (closes df) 20).getD i PF.nan) ((sma (closes df) 8).getD i PF.nan))
        = true)
    ↔ longOrder df i := by
  rw [sma_pf_getD df 3 i (by omega) hi, sma_pf_getD df 8 i (by omega) hi,
    sma_pf_getD df 20 i (by omega) hi]
  by_cases h20 : 20 ≤ i + 1
  · have h8 : 8 ≤ i + 1 := by omega
    have h3 : 3 ≤ i + 1 := by omega
    rw [if_pos h20, if_pos h8, if_pos h3]
    simp only [PF.plt, Bool.and_eq_true, decide_eq_true_eq]
    constructor
    · rintro ⟨hq1, hq2⟩
      exact ⟨smaQ df 3 i, smaQ df 8 i, smaQ df 20 i, by simp [smaAt, h3, hi],
        by simp [smaAt, h8, hi], by simp [smaAt, h20, hi], hq1, hq2⟩
    · rintro ⟨x, y, z, hx, hy, hz, hxy, hyz⟩
      simp [smaAt, h3, hi] at hx
      simp [smaAt, h8, hi] at hy
      simp [smaAt, h20, hi] at hz
      exact ⟨hy ▸ hx ▸ hxy, hz ▸ hy ▸ hyz⟩
  · rw [if_neg h20]
    constructor
    · intro h
      rw [Bool.and_eq_true] at h
      rcases h with ⟨_, h2⟩
      by_cases h8 : 8 ≤ i + 1
      · rw [if_pos h8] at h2
        simp [PF.plt] at h2
      · rw [if_neg h8] at h2
        simp [PF.plt] at h2
    · rintro ⟨x, y, z, hx, hy, hz, hxy, hyz⟩
      simp [smaAt, h20, hi] at hz

/-- The boolean SHORT chain condition of `triple_sma_cross` at index i agrees
with the specification-side mirrored strict ordering. -/
theorem short_cond_iff (df : List Candle) (i : ℕ) (hi : i < df.length) :
    ((PF.plt ((sma (closes df) 3).getD i PF.nan) ((sma (closes df) 8).getD i PF.nan)
      && PF.plt ((sma (closes df) 8).getD i PF.nan) ((sma (closes df) 20).getD i PF.nan))
        = true)
    ↔ shortOrder df i := by
  rw [sma_pf_getD df 3 i (by omega) hi, sma_pf_getD df 8 i (by omega) hi,
    sma_pf_getD df 20 i (by omega) hi]
  by_cases h20 : 20 ≤ i + 1
  · have h8 : 8 ≤ i + 1 := by omega
    have h3 : 3 ≤ i + 1 := by omega
    rw [if_pos h20, if_pos h8, if_pos h3]
    simp only [PF.plt, Bool.and_eq_true, decide_eq_true_eq]
    constructor
    · rintro ⟨hq1, hq2⟩
      exact ⟨smaQ df 3 i, smaQ df 8 i, smaQ df 20 i, by simp [smaAt, h3, hi],
        by simp [smaAt, h8, hi], by simp [smaAt, h20, hi], hq1, hq2⟩
    · rintro ⟨x, y, z, hx, hy, hz, hxy, hyz⟩
      simp [smaAt, h3, hi] at hx
      simp [smaAt, h8, hi] at hy
      simp [smaAt, h20, hi] at hz
      exact ⟨hy ▸ hx ▸ hxy, hz ▸ hy ▸ hyz⟩
  · rw [if_neg h20]
    constructor
    · intro h
      rw [Bool.and_eq_true] at h
      rcases h with ⟨_, h2⟩
      by_cases h8 : 8 ≤ i + 1
      · rw [if_pos h8] at h2
        simp [PF.plt] at h2
      · rw [if_neg h8] at h2
        simp [PF.plt] at h2
    · rintro ⟨x, y, z, hx, hy, hz, hxy, hyz⟩
      simp [smaAt, h20, hi] at hz

theorem bool_false_iff_not (b : Bool) (P : Prop) (h : b = true ↔ P) : b = false ↔ ¬ P := by
  rw [← h]
  cases b <;> simp

/-- C5: crossover edge rule.  For every candle frame, the crossover result is
LONG exactly when the strict chain fast > medium > slow (SMA 3/8/20 of close)
holds at the latest index but not at the prior one, SHORT exactly under the
mirrored ordering, and none otherwise; frames with fewer than 3 bars always
give none (no decision, no error). -/
theorem C5_crossover (df : List Candle) :
    (triple_sma_cross df = some Side.LONG ↔
      3 ≤ df.length ∧ longOrder df (df.length - 1) ∧ ¬ longOrder df (df.length - 2))
    ∧ (triple_sma_cross df = some Side.SHORT ↔
      3 ≤ df.length ∧ shortOrder df (df.length - 1) ∧ ¬ shortOrder df (df.length - 2))
    ∧ (df.length < 3 → triple_sma_cross df = none) := by
  by_cases hlen : df.length < 3
  · have hL : triple_sma_cross df = none := by
      unfold triple_sma_cross
      rw [if_pos hlen]
    refine ⟨?_, ?_, fun _ => hL⟩
    · rw [hL]
      simp only [reduceCtorEq, false_iff, not_and]
      intro h
      omega
    · rw [hL]
      simp only [reduceCtorEq, false_iff, not_and]
      intro h
      omega
  · have hn1 : df.length - 1 < df.length := by omega
    have hn2 : df.length - 2 < df.length := by omega
    have hX1 := long_cond_iff df (df.length - 1) hn1
    have hY1 := long_cond_iff df (df.length - 2) hn2
    have hX2 := short_cond_iff df (df.length - 1) hn1
    have hY2 := short_cond_iff df (df.length - 2) hn2
    simp only [triple_sma_cross]
    rw [if_neg hlen]
    set a1 := (sma (closes df) 3).getD (df.length - 1) PF.nan with ha1
    set b1 := (sma (closes df) 8).getD (df.length - 1) PF.nan with hb1
    set c1 := (sma (closes df) 20).getD (df.length - 1) PF.nan with hc1
    set a2 := (sma (closes df) 3).getD (df.length - 2) PF.nan with ha2
    set b2 := (sma (closes df) 8).getD (df.length - 2) PF.nan with hb2
    set c2 := (sma (closes df) 20).getD (df.length - 2) PF.nan with hc2
    have hA : ((PF.plt b1 a1 && PF.plt c1 b1) && !(PF.plt b2 a2 && PF.plt c2 b2)) = true ↔
        longOrder df (df.length - 1) ∧ ¬ longOrder df (df.length - 2) := by
      rw [Bool.and_eq_true, Bool.not_eq_true', hX1, bool_false_iff_not _ _ hY1]
    have hB : ((PF.plt a1 b1 && PF.plt b1 c1) && !(PF.plt a2 b2 && PF.plt b2 c2)) = true ↔
        shortOrder df (df.length - 1) ∧ ¬ shortOrder df (df.length - 2) := by
      rw [Bool.and_eq_true, Bool.not_eq_true', hX2, bool_false_iff_not _ _ hY2]
    by_cases hAb : ((PF.plt b1 a1 && PF.plt c1 b1) && !(PF.plt b2 a2 && PF.plt c2 b2)) = true
    · rw [if_pos hAb]
      refine ⟨⟨fun _ => ⟨by omega, hA.mp hAb⟩, fun _ => rfl⟩, ⟨?_, ?_⟩, fun h => absurd h hlen⟩
      · intro h
        exact absurd h (by simp)
      · rintro ⟨_, hS1, _⟩
        have hplt : PF.plt b1 a1 = true := by
          rcases Bool.and_eq_true .. |>.mp (Bool.and_eq_true .. |>.mp hAb).1 with ⟨h1, _⟩
          exact h1
        have : PF.plt a1 b1 = true := by
          rcases (hX2.mpr hS1) with h2
          rcases Bool.and_eq_true .. |>.mp h2 with ⟨h2a, _⟩
          exact h2a
        rw [PF.plt_asymm _ _ this] at hplt
        exact absurd hplt (by simp)
    · rw [if_neg hAb]
      have hnotA : ¬ (longOrder df (df.length - 1) ∧ ¬ longOrder df (df.length - 2)) := by
        intro h
        exact hAb (hA.mpr h)
      by_cases hBb : ((PF.plt a1 b1 && PF.plt b1 c1) && !(PF.plt a2 b2 && PF.plt b2 c2)) = true
      · rw [if_pos hBb]
        refine ⟨⟨fun h => absurd h (by simp), ?_⟩,
          ⟨fun _ => ⟨by omega, hB.mp hBb⟩, fun _ => rfl⟩, fun h => absurd h hlen⟩
        rintro ⟨_, hL1, hL2⟩
        exact absurd ⟨hL1, hL2⟩ hnotA
      · rw [if_neg hBb]
        have hnotB : ¬ (shortOrder df (df.length - 1) ∧ ¬ shortOrder df (df.length - 2)) := by
          intro h
          exact hBb (hB.mpr h)
        refine ⟨⟨fun h => absurd h (by simp), ?_⟩,
          ⟨fun h => absurd h (by simp), ?_⟩, fun h => absurd h hlen⟩
        · rintro ⟨_, hL1, hL2⟩
          exact absurd ⟨hL1, hL2⟩ hnotA
        · rintro ⟨_, hS1, hS2⟩
          exact absurd ⟨hS1, hS2⟩ hnotB

/-! ## Claim C3: Bollinger width at an absent or zero midline -/

theorem ratSqrt_eq_zero_iff (q : ℚ) (hq : 0 ≤ q) : Rat.sqrt q = 0 ↔ q = 0 := by
  constructor
  · intro h
    unfold Rat.sqrt at h
    rw [Rat.mkRat_eq_zero (by simpa [Nat.sqrt_eq_zero] using q.den_nz)] at h
    have hnum : q.num.toNat = 0 := by
      have := h
      unfold Int.sqrt at this
      have h2 : Nat.sqrt q.num.toNat = 0 := by exact_mod_cast this
      simpa [Nat.sqrt_eq_zero] using h2
    have : q.num = 0 := by
      have hnn : 0 ≤ q.num := Rat.num_nonneg.mpr hq
      omega
    exact Rat.num_eq_zero.mp this
  · intro h
    subst h
    simpa using Rat.sqrt_eq 0

/-- Sum of squared deviations over the complete window, divided by p - 1: the
rational value of the sample variance computed by `rolling(p).std()`. -/
def varQ (p i : ℕ) (l : List ℚ) : ℚ :=
  ((winQ p i l).map fun x =>
    (x - (winQ p i l).sum / p) * (x - (winQ p i l).sum / p)).sum / ((p : ℚ) - 1)

theorem varQ_nonneg (p i : ℕ) (l : List ℚ) (hp : 1 ≤ p) : 0 ≤ varQ p i l := by
  unfold varQ
  apply div_nonneg
  · apply List.sum_nonneg
    intro x hx
    simp only [List.mem_map] at hx
    obtain ⟨q, _, rfl⟩ := hx
    exact mul_self_nonneg _
  · have h1 : (1 : ℚ) ≤ (p : ℚ) := by exact_mod_cast hp
    linarith

theorem rollingStd_num (p i : ℕ) (l : List ℚ) (hi : i < l.length) (hp : p ≤ i + 1)
    (hp2 : 2 ≤ p) :
    (rollingStd p (l.map PF.num)).getD i PF.nan = PF.num (Rat.sqrt (varQ p i l)) := by
  rw [rollingStd_getD p i _ (by simpa using hi), if_neg (by omega), winS_map_num,
    psum_map_num]
  rw [PF.div_num_num _ _ (by
    have h1 : (0 : ℚ) < (p : ℚ) := by exact_mod_cast (by omega : 0 < p)
    linarith)]
  have hmap : ((winQ p i l).map PF.num).map
      (fun x => PF.mul (PF.sub x (PF.num ((winQ p i l).sum / p)))
        (PF.sub x (PF.num ((winQ p i l).sum / p)))) =
      ((winQ p i l).map fun q =>
        (q - (winQ p i l).sum / p) * (q - (winQ p i l).sum / p)).map PF.num := by
    rw [List.map_map, List.map_map]
    apply List.map_congr_left
    intro q _
    simp
  rw [hmap, psum_map_num]
  rw [PF.div_num_num _ _ (by
    have h1 : (1 : ℚ) < (p : ℚ) := by exact_mod_cast (by omega : 1 < p)
    intro hz
    have : (p : ℚ) - 1 = 0 := hz
    linarith)]
  have hnn : 0 ≤ varQ p i l := varQ_nonneg p i l (by omega)
  simp only [PF.psqrt]
  rw [if_neg (by rw [not_lt]; exact hnn)]
  rfl

theorem bollWidth_getD (s : List PF) (i : ℕ) (h : i < s.length) :
    (bollWidth s).getD i PF.nan =
      PF.div
        (PF.sub
          (PF.add ((bollMA s).getD i PF.nan)
            (PF.mul (PF.num BOLLINGER_STD) ((rollingStd BOLLINGER_PERIOD s).getD i PF.nan)))
          (PF.sub ((bollMA s).getD i PF.nan)
            (PF.mul (PF.num BOLLINGER_STD) ((rollingStd BOLLINGER_PERIOD s).getD i PF.nan))))
        ((bollMA s).getD i PF.nan) := by
  dsimp only [bollWidth, bollinger_bands, bollMA]
  rw [getD_seriesBin_div _ _ _ (by simpa using h) (by simpa using h)]
  rw [getD_subS _ _ _ (by simpa using h) (by simpa using h)]
  rw [getD_addS _ _ _ (by simpa using h) (by simpa using h)]
  rw [getD_subS _ _ _ (by simpa using h) (by simpa using h)]
  rw [getD_smulS _ _ _ (by simpa using h)]

/-- The Bollinger midline over eight zero closes is the number 0. -/
theorem bollMA_zeros :
    (bollMA ((List.replicate 8 (0 : ℚ)).map PF.num)).getD 7 PF.nan = PF.num 0 := by
  unfold bollMA
  rw [show BOLLINGER_PERIOD = 8 from rfl,
    rollingMean_num 8 7 _ (by simp) (by omega) (by omega)]
  norm_num [winQ, List.sum_replicate]

/-- The Bollinger width over eight zero closes is NaN (0/0). -/
theorem bollWidth_zeros :
    (bollWidth ((List.replicate 8 (0 : ℚ)).map PF.num)).getD 7 PF.nan = PF.nan := by
  rw [bollWidth_getD _ _ (by simp), bollMA_zeros,
    show BOLLINGER_PERIOD = 8 from rfl,
    rollingStd_num 8 7 _ (by simp) (by omega) (by omega)]
  have hv : varQ 8 7 (List.replicate 8 (0 : ℚ)) = 0 := by
    unfold varQ winQ
    simp [List.sum_replicate]
  rw [hv, (ratSqrt_eq_zero_iff 0 le_rfl).mpr rfl]
  norm_num [BOLLINGER_STD, PF.div]

/-- Counterexample for C3 as stated: over the close series of eight zeros the
midline at the last index is zero, yet the width there is NaN — not "absent,
never NaN". -/
theorem C3_counterexample :
    (bollMA ((List.replicate 8 (0 : ℚ)).map PF.num)).getD 7 PF.nan = PF.num 0 ∧
      (bollWidth ((List.replicate 8 (0 : ℚ)).map PF.num)).getD 7 PF.nan = PF.nan :=
  ⟨bollMA_zeros, bollWidth_zeros⟩

/-- C3 (amended): at every index where the Bollinger midline is absent (NaN)
or zero, the width is NaN or +Inf — the division is not guarded — and this
non-finite value is propagated into the downstream width-filter comparison,
where `width < BOLLINGER_WIDTH_MIN_PCT` evaluates to false, so the width
filter passes rather than suppressing the signal. -/
theorem C3_width_guard (l : List ℚ) (i : ℕ) (hi : i < l.length)
    (h : (bollMA (l.map PF.num)).getD i PF.nan = PF.nan ∨
         (bollMA (l.map PF.num)).getD i PF.nan = PF.num 0) :
    ((bollWidth (l.map PF.num)).getD i PF.nan = PF.nan ∨
     (bollWidth (l.map PF.num)).getD i PF.nan = PF.inf)
    ∧ PF.plt ((bollWidth (l.map PF.num)).getD i PF.nan)
        (PF.num BOLLINGER_WIDTH_MIN_PCT) = false := by
  have hlen : i < (l.map PF.num).length := by simpa using hi
  have key : (bollWidth (l.map PF.num)).getD i PF.nan = PF.nan ∨
      (bollWidth (l.map PF.num)).getD i PF.nan = PF.inf := by
    rcases h with hma | hma
    · left
      rw [bollWidth_getD _ _ hlen, hma]
      simp
    · have h8 : BOLLINGER_PERIOD ≤ i + 1 := by
        by_contra hc
        unfold bollMA at hma
        rw [rollingMean_getD _ _ _ hlen, if_pos (by omega)] at hma
        exact absurd hma (by simp)
      have hstd := rollingStd_num BOLLINGER_PERIOD i l hi h8 (by norm_num [BOLLINGER_PERIOD])
      rw [bollWidth_getD _ _ hlen, hma, hstd]
      have hvn : 0 ≤ Rat.sqrt (varQ BOLLINGER_PERIOD i l) := Rat.sqrt_nonneg _
      set v := Rat.sqrt (varQ BOLLINGER_PERIOD i l) with hv
      simp only [PF.mul_num_num, PF.add_num_num, PF.sub_num_num]
      by_cases hz : v = 0
      · left
        rw [hz]
        norm_num [BOLLINGER_STD, PF.div]
      · right
        have hpos : 0 < 0 + BOLLINGER_STD * v - (0 - BOLLINGER_STD * v) := by
          have : 0 < v := lt_of_le_of_ne hvn (Ne.symm hz)
          norm_num [BOLLINGER_STD]
          linarith
        simp only [PF.div]
        rw [if_pos trivial, if_neg (by linarith), if_pos hpos]
  refine ⟨key, ?_⟩
  rcases key with hk | hk <;> rw [hk] <;> rfl

/-- Witness for C3 (amended), at the eight-zero close series and index 7. -/
theorem C3_width_guard_witness :
    ((bollWidth ((List.replicate 8 (0 : ℚ)).map PF.num)).getD 7 PF.nan = PF.nan ∨
     (bollWidth ((List.replicate 8 (0 : ℚ)).map PF.num)).getD 7 PF.nan = PF.inf)
    ∧ PF.plt ((bollWidth ((List.replicate 8 (0 : ℚ)).map PF.num)).getD 7 PF.nan)
        (PF.num BOLLINGER_WIDTH_MIN_PCT) = false :=
  C3_width_guard (List.replicate 8 0) 7 (by simp) (Or.inr bollMA_zeros)

/-! ## Claim C6: ADX range and zero coercion -/

theorem getD_candle_mem (df : List Candle) (i : ℕ) (h : i < df.length) :
    df.getD i candle0 ∈ df := by
  rw [List.getD_eq_getElem?_getD, List.getElem?_eq_getElem h]
  exact List.getElem_mem h

theorem forall_mem_of_forall_getD (P : PF → Prop) (s : List PF)
    (h : ∀ j, j < s.length → P (s.getD j PF.nan)) : ∀ x ∈ s, P x := by
  intro x hx
  obtain ⟨j, hj, hxe⟩ := List.mem_iff_getElem.mp hx
  have := h j hj
  rw [List.getD_eq_getElem?_getD, List.getElem?_eq_getElem hj] at this
  rw [← hxe]
  exact this

theorem psum_NNN (l : List PF) (h : ∀ x ∈ l, isNNN x) : isNNN (PF.psum l) := by
  by_cases hn : PF.nan ∈ l
  · exact Or.inl (psum_eq_nan_of_mem l hn)
  · refine Or.inr (psum_isNN l ?_)
    intro x hx
    rcases h x hx with rfl | hx2
    · exact absurd hx hn
    · exact hx2

/-- `true_range` always produces nonnegative finite cells, for candles whose
low does not exceed their high (the candle invariant of the spec's data
model). -/
theorem tr_shape (df : List Candle) (hinv : ∀ c ∈ df, c.low ≤ c.high) :
    ∀ i, i < df.length → isNN ((true_range df).getD i PF.nan) := by
  intro i hi
  rw [true_range_getD df i hi]
  rw [getD_subS _ _ _ (by simpa using hi) (by simpa using hi)]
  rw [getD_absS _ _ (by simpa using hi), getD_absS _ _ (by simpa using hi)]
  rw [getD_subS _ _ _ (by simpa using hi) (by simpa using hi),
    getD_subS _ _ _ (by simpa using hi) (by simpa using hi)]
  rw [getD_highs df i hi, getD_lows df i hi]
  by_cases h0 : i = 0
  · subst h0
    rw [shiftS_getD_zero _ (by simpa using hi)]
    rw [PF.sub_num_num, PF.sub_nan, PF.sub_nan, PF.pabs_nan, max3skipna_num_nan_nan]
    refine ⟨_, ?_, rfl⟩
    have := hinv _ (getD_candle_mem df 0 hi)
    linarith
  · rw [shiftS_getD_succ _ _ (by simpa using hi) (by omega)]
    rw [getD_closes df (i - 1) (by omega)]
    rw [PF.sub_num_num, PF.sub_num_num, PF.sub_num_num, PF.pabs_num, PF.pabs_num,
      max3skipna_num_num_num]
    refine ⟨_, ?_, rfl⟩
    have h1 : (0 : ℚ) ≤ |(df.getD i candle0).high - (df.getD (i - 1) candle0).close| :=
      abs_nonneg _
    have h2 := le_max_left (max ((df.getD i candle0).high - (df.getD i candle0).low)
      |(df.getD i candle0).high - (df.getD (i - 1) candle0).close|)
      |(df.getD i candle0).low - (df.getD (i - 1) candle0).close|
    have h3 := le_max_right ((df.getD i candle0).high - (df.getD i candle0).low)
      |(df.getD i candle0).high - (df.getD (i - 1) candle0).close|
    linarith

/-- Complete-window rolling mean of a NaN-or-nonnegative series is itself NaN
or nonnegative at every valid index. -/
theorem rollingMean_shape (p : ℕ) (s : List PF) (hp : 1 ≤ p)
    (h : ∀ x ∈ s, isNNN x) :
    ∀ i, i < s.length → isNNN ((rollingMean p s).getD i PF.nan) := by
  intro i hi
  rw [rollingMean_getD p i s hi]
  by_cases hc : i + 1 < p
  · rw [if_pos hc]
    exact Or.inl rfl
  · rw [if_neg hc]
    have hwin : ∀ x ∈ winS p i s, isNNN x := fun x hx => h x (winS_subset p i s hx)
    rcases psum_NNN _ hwin with hs | ⟨t, ht, hs⟩
    · rw [hs]
      exact Or.inl rfl
    · rw [hs]
      rw [PF.div_num_num _ _ (by exact_mod_cast (by omega : ¬ p = 0))]
      refine Or.inr ⟨t / p, ?_, rfl⟩
      positivity

theorem rollingSum_shape (p : ℕ) (s : List PF) (h : ∀ x ∈ s, isNNI x) :
    ∀ i, i < s.length → isNNI ((rollingSum p s).getD i PF.nan) := by
  intro i hi
  rw [rollingSum_getD p i s hi]
  by_cases hc : i + 1 < p
  · rw [if_pos hc]
    exact Or.inl rfl
  · rw [if_neg hc]
    exact psum_isNNI _ (fun x hx => h x (winS_subset p i s hx))

theorem plt_zero_true (u : PF) (h : PF.plt (PF.num 0) u = true) :
    u = PF.inf ∨ ∃ t, 0 < t ∧ u = PF.num t := by
  cases u with
  | nan => simp [PF.plt] at h
  | inf => exact Or.inl rfl
  | ninf => simp [PF.plt] at h
  | num a =>
    simp [PF.plt] at h
    exact Or.inr ⟨a, h, rfl⟩

theorem plusDM_shape (df : List Candle) :
    ∀ i, i < df.length → isNNI ((plusDM df).getD i PF.nan) := by
  intro i hi
  unfold plusDM seriesBin
  rw [getD_zipWith _ _ _ _ (by simpa using hi) (by simpa using hi)]
  by_cases hc : (PF.plt ((downMove df).getD i PF.nan) ((upMove df).getD i PF.nan)
      && PF.plt (PF.num 0) ((upMove df).getD i PF.nan)) = true
  · rw [if_pos hc]
    rcases Bool.and_eq_true .. |>.mp hc with ⟨_, h2⟩
    rcases plt_zero_true _ h2 with h3 | ⟨t, ht, h3⟩
    · rw [h3]
      exact Or.inr (Or.inl rfl)
    · rw [h3]
      exact Or.inr (Or.inr ⟨t, le_of_lt ht, rfl⟩)
  · rw [if_neg hc]
    exact Or.inr (Or.inr ⟨0, le_rfl, rfl⟩)

theorem minusDM_shape (df : List Candle) :
    ∀ i, i < df.length → isNNI ((minusDM df).getD i PF.nan) := by
  intro i hi
  unfold minusDM seriesBin
  rw [getD_zipWith _ _ _ _ (by simpa using hi) (by simpa using hi)]
  by_cases hc : (PF.plt ((upMove df).getD i PF.nan) ((downMove df).getD i PF.nan)
      && PF.plt (PF.num 0) ((downMove df).getD i PF.nan)) = true
  · rw [if_pos hc]
    rcases Bool.and_eq_true .. |>.mp hc with ⟨_, h2⟩
    rcases plt_zero_true _ h2 with h3 | ⟨t, ht, h3⟩
    · rw [h3]
      exact Or.inr (Or.inl rfl)
    · rw [h3]
      exact Or.inr (Or.inr ⟨t, le_of_lt ht, rfl⟩)
  · rw [if_neg hc]
    exact Or.inr (Or.inr ⟨0, le_rfl, rfl⟩)

theorem pdiS_getD (df : List Candle) (i : ℕ) (hi : i < df.length) :
    (pdiS df).getD i PF.nan =
      PF.div (PF.mul (PF.num 100) ((rollingSum ADX_PERIOD (plusDM df)).getD i PF.nan))
        ((adxATR df).getD i PF.nan) := by
  unfold pdiS
  rw [getD_seriesBin_div _ _ _ (by simpa using hi) (by simpa using hi),
    getD_smulS _ _ _ (by simpa using hi)]

theorem mdiS_getD (df : List Candle) (i : ℕ) (hi : i < df.length) :
    (mdiS df).getD i PF.nan =
      PF.div (PF.mul (PF.num 100) ((rollingSum ADX_PERIOD (minusDM df)).getD i PF.nan))
        ((adxATR df).getD i PF.nan) := by
  unfold mdiS
  rw [getD_seriesBin_div _ _ _ (by simpa using hi) (by simpa using hi),
    getD_smulS _ _ _ (by simpa using hi)]

theorem dxS_getD (df : List Candle) (i : ℕ) (hi : i < df.length) :
    (dxS df).getD i PF.nan =
      PF.div
        (PF.mul (PF.num 100)
          (PF.pabs (PF.sub ((pdiS df).getD i PF.nan) ((mdiS df).getD i PF.nan))))
        (PF.add ((pdiS df).getD i PF.nan) ((mdiS df).getD i PF.nan)) := by
  unfold dxS
  rw [getD_seriesBin_div _ _ _ (by simp [hi]) (by simp [hi]),
    getD_smulS _ _ _ (by simp [hi])]
  rw [getD_absS _ _ (by simp [hi])]
  rw [getD_subS _ _ _ (by simpa using hi) (by simpa using hi)]
  unfold addS seriesBin
  rw [getD_zipWith _ _ _ _ (by simpa using hi) (by simpa using hi)]

theorem adx_getD (df : List Candle) (i : ℕ) (hi : i < df.length) :
    (adx df).getD i PF.nan =
      (fun x => match x with | PF.nan => PF.num 0 | y => y)
        ((rollingMean ADX_PERIOD (dxS df)).getD i PF.nan) := by
  unfold adx fillna0
  rw [getD_map_pf _ _ _ (by simp [hi])]

theorem mul_hundred_NNI (x : PF) (hx : isNNI x) : isNNI (PF.mul (PF.num 100) x) := by
  rcases hx with rfl | rfl | ⟨t, ht, rfl⟩
  · exact Or.inl rfl
  · refine Or.inr (Or.inl ?_)
    simp [PF.mul]
  · exact Or.inr (Or.inr ⟨100 * t, by linarith, rfl⟩)

theorem div_NNI_NNN (x y : PF) (hx : isNNI x) (hy : isNNN y) : isNNI (PF.div x y) := by
  rcases hy with rfl | ⟨b, hb, rfl⟩
  · rcases hx with rfl | rfl | ⟨a, ha, rfl⟩ <;> exact Or.inl (by simp)
  · rcases hx with rfl | rfl | ⟨a, ha, rfl⟩
    · exact Or.inl (by simp)
    · refine Or.inr (Or.inl ?_)
      simp [PF.div, hb]
    · by_cases hbz : b = 0
      · subst hbz
        by_cases haz : a = 0
        · subst haz
          exact Or.inl (by simp [PF.div])
        · refine Or.inr (Or.inl ?_)
          simp [PF.div, haz, lt_of_le_of_ne ha (Ne.symm haz)]
      · refine Or.inr (Or.inr ⟨a / b, ?_, ?_⟩)
        · positivity
        · simp [PF.div, hbz]

theorem pdiS_shape (df : List Candle) (hinv : ∀ c ∈ df, c.low ≤ c.high) :
    ∀ i, i < df.length → isNNI ((pdiS df).getD i PF.nan) := by
  intro i hi
  rw [pdiS_getD df i hi]
  apply div_NNI_NNN
  · apply mul_hundred_NNI
    refine rollingSum_shape _ _ ?_ i (by simpa using hi)
    apply forall_mem_of_forall_getD
    intro j hj
    exact plusDM_shape df j (by simpa using hj)
  · unfold adxATR
    refine rollingMean_shape _ _ (by norm_num [ADX_PERIOD]) ?_ i (by simpa using hi)
    apply forall_mem_of_forall_getD
    intro j hj
    exact Or.inr (tr_shape df hinv j (by simpa using hj))

theorem mdiS_shape (df : List Candle) (hinv : ∀ c ∈ df, c.low ≤ c.high) :
    ∀ i, i < df.length → isNNI ((mdiS df).getD i PF.nan) := by
  intro i hi
  rw [mdiS_getD df i hi]
  apply div_NNI_NNN
  · apply mul_hundred_NNI
    refine rollingSum_shape _ _ ?_ i (by simpa using hi)
    apply forall_mem_of_forall_getD
    intro j hj
    exact minusDM_shape df j (by simpa using hj)
  · unfold adxATR
    refine rollingMean_shape _ _ (by norm_num [ADX_PERIOD]) ?_ i (by simpa using hi)
    apply forall_mem_of_forall_getD
    intro j hj
    exact Or.inr (tr_shape df hinv j (by simpa using hj))

theorem dx_cell_shape (x y : PF) (hx : isNNI x) (hy : isNNI y) :
    isNNN (PF.div (PF.mul (PF.num 100) (PF.pabs (PF.sub x y))) (PF.add x y)) := by
  rcases hx with rfl | rfl | ⟨a, ha, rfl⟩
  · exact Or.inl (by simp)
  · rcases hy with rfl | rfl | ⟨b, hb, rfl⟩
    · exact Or.inl (by simp)
    · exact Or.inl (by simp [PF.sub, PF.neg, PF.add, PF.pabs, PF.mul, PF.div])
    · refine Or.inl ?_
      have h1 : PF.sub PF.inf (PF.num b) = PF.inf := by simp [PF.sub, PF.neg, PF.add]
      rw [h1]
      have h2 : PF.mul (PF.num 100) (PF.pabs PF.inf) = PF.inf := by
        simp [PF.pabs, PF.mul]
      rw [h2]
      have h3 : PF.add PF.inf (PF.num b) = PF.inf := by simp [PF.add]
      rw [h3]
      simp [PF.div]
  · rcases hy with rfl | rfl | ⟨b, hb, rfl⟩
    · exact Or.inl (by simp)
    · refine Or.inl ?_
      have h1 : PF.sub (PF.num a) PF.inf = PF.ninf := by simp [PF.sub, PF.neg, PF.add]
      rw [h1]
      have h2 : PF.mul (PF.num 100) (PF.pabs PF.ninf) = PF.inf := by
        simp [PF.pabs, PF.mul]
      rw [h2]
      have h3 : PF.add (PF.num a) PF.inf = PF.inf := by simp [PF.add]
      rw [h3]
      simp [PF.div]
    · rw [PF.sub_num_num, PF.pabs_num, PF.mul_num_num, PF.add_num_num]
      by_cases hab : a + b = 0
      · have haz : a = 0 := by linarith
        have hbz : b = 0 := by linarith
        subst haz
        subst hbz
        exact Or.inl (by norm_num [PF.div])
      · have hpos : 0 < a + b := lt_of_le_of_ne (by linarith) (Ne.symm hab)
        refine Or.inr ⟨100 * |a - b| / (a + b), by positivity, ?_⟩
        rw [PF.div_num_num _ _ hab]

theorem dxS_shape (df : List Candle) (hinv : ∀ c ∈ df, c.low ≤ c.high) :
    ∀ i, i < df.length → isNNN ((dxS df).getD i PF.nan) := by
  intro i hi
  rw [dxS_getD df i hi]
  exact dx_cell_shape _ _ (pdiS_shape df hinv i hi) (mdiS_shape df hinv i hi)

theorem adx_shape (df : List Candle) (hinv : ∀ c ∈ df, c.low ≤ c.high) (i : ℕ)
    (hi : i < df.length) : ∃ t, 0 ≤ t ∧ (adx df).getD i PF.nan = PF.num t := by
  rw [adx_getD df i hi]
  have hrm := rollingMean_shape ADX_PERIOD (dxS df) (by norm_num [ADX_PERIOD])
    (forall_mem_of_forall_getD _ _ (fun j hj => dxS_shape df hinv j (by simpa using hj)))
    i (by simpa using hi)
  rcases hrm with hn | ⟨t, ht, hv⟩
  · rw [hn]
    exact ⟨0, le_rfl, rfl⟩
  · rw [hv]
    exact ⟨t, ht, rfl⟩

theorem adx_denominator_zero (df : List Candle) (hinv : ∀ c ∈ df, c.low ≤ c.high)
    (i : ℕ) (hi : i < df.length)
    (hden : (addS (pdiS df) (mdiS df)).getD i PF.nan = PF.num 0) :
    (adx df).getD i PF.nan = PF.num 0 := by
  have hadd : PF.add ((pdiS df).getD i PF.nan) ((mdiS df).getD i PF.nan) = PF.num 0 := by
    unfold addS seriesBin at hden
    rw [getD_zipWith _ _ _ _ (by simpa using hi) (by simpa using hi)] at hden
    exact hden
  have hp := pdiS_shape df hinv i hi
  have hq := mdiS_shape df hinv i hi
  have hdx : (dxS df).getD i PF.nan = PF.nan := by
    rcases hp with hp | hp | ⟨a, ha, hp⟩
    · rw [hp, PF.nan_add] at hadd
      exact absurd hadd (by simp)
    · rcases hq with hq | hq | ⟨b, hb, hq⟩ <;> rw [hp, hq] at hadd <;>
        exact absurd hadd (by simp [PF.add])
    · rcases hq with hq | hq | ⟨b, hb, hq⟩
      · rw [hp, hq, PF.add_nan] at hadd
        exact absurd hadd (by simp)
      · rw [hp, hq] at hadd
        exact absurd hadd (by simp [PF.add])
      · rw [hp, hq, PF.add_num_num] at hadd
        have hab : a + b = 0 := by
          have := hadd
          simp at this
          exact this
        have haz : a = 0 := by linarith
        have hbz : b = 0 := by linarith
        rw [dxS_getD df i hi, hp, hq, haz, hbz]
        norm_num [PF.div]
  rw [adx_getD df i hi]
  rw [rollingMean_getD _ _ _ (by simpa using hi)]
  by_cases hc : i + 1 < ADX_PERIOD
  · rw [if_pos hc]
  · rw [if_neg hc]
    have hmem : PF.nan ∈ winS ADX_PERIOD i (dxS df) := by
      rw [← hdx]
      exact getD_mem_winS _ _ _ _ (by simpa using hi) (by simp [ADX_PERIOD])
        (by omega)
    rw [psum_eq_nan_of_mem _ hmem, PF.nan_div]

theorem adx_early_zero (df : List Candle) (i : ℕ) (hi : i < df.length) (h14 : i < 14) :
    (adx df).getD i PF.nan = PF.num 0 := by
  rw [adx_getD df i hi]
  rw [rollingMean_getD _ _ _ (by simpa using hi)]
  by_cases hc : i + 1 < ADX_PERIOD
  · rw [if_pos hc]
  · rw [if_neg hc]
    have h8 : 8 ≤ i + 1 := by
      simpa [ADX_PERIOD] using hc
    have hj : i - 7 < df.length := by omega
    have hdx : (dxS df).getD (i - 7) PF.nan = PF.nan := by
      rw [dxS_getD df (i - 7) hj, pdiS_getD df (i - 7) hj]
      rw [rollingSum_getD _ _ _ (by simpa using hj), if_pos (by simp only [ADX_PERIOD]; omega)]
      rw [PF.mul_nan, PF.nan_div, PF.nan_sub]
      simp
    have hmem : PF.nan ∈ winS ADX_PERIOD i (dxS df) := by
      rw [← hdx]
      exact getD_mem_winS _ _ _ _ (by simpa using hj) (by simp [ADX_PERIOD])
        (by omega)
    rw [psum_eq_nan_of_mem _ hmem, PF.nan_div]

/-- C6: for every candle series respecting the data-model invariant
low ≤ high, the `adx` series holds a nonnegative finite number at every
index (in particular it is never negative); it is exactly 0 at every index
where the internal dx denominator `pdi + mdi` is zero, and exactly 0 at every
index with insufficient history for the chained rolling windows (i < 14). -/
theorem C6_adx_range (df : List Candle) (i : ℕ) (hinv : ∀ c ∈ df, c.low ≤ c.high)
    (hi : i < df.length) :
    (∃ t, 0 ≤ t ∧ (adx df).getD i PF.nan = PF.num t)
    ∧ ((addS (pdiS df) (mdiS df)).getD i PF.nan = PF.num 0 →
        (adx df).getD i PF.nan = PF.num 0)
    ∧ (i < 14 → (adx df).getD i PF.nan = PF.num 0) :=
  ⟨adx_shape df hinv i hi, fun h => adx_denominator_zero df hinv i hi h,
    fun h => adx_early_zero df i hi h⟩

/-- Witness for C6 on a two-candle frame of degenerate candles, at index 1. -/
theorem C6_adx_range_witness :
    (∃ t, 0 ≤ t ∧ (adx (List.replicate 2 candle0)).getD 1 PF.nan = PF.num t)
    ∧ ((addS (pdiS (List.replicate 2 candle0)) (mdiS (List.replicate 2 candle0))).getD 1
          PF.nan = PF.num 0 →
        (adx (List.replicate 2 candle0)).getD 1 PF.nan = PF.num 0)
    ∧ (1 < 14 → (adx (List.replicate 2 candle0)).getD 1 PF.nan = PF.num 0) :=
  C6_adx_range (List.replicate 2 candle0) 1
    (fun c hc => by rw [List.eq_of_mem_replicate hc]; exact le_rfl) (by simp)

/-! ## Claim C4: signal emission iff all three filters pass -/

theorem sum_sq_zero (c : ℚ) (l : List ℚ)
    (h : (l.map fun x => (x - c) * (x - c)).sum = 0) : ∀ x ∈ l, x = c := by
  induction l with
  | nil => intro x hx; simp at hx
  | cons y ys ih =>
    rw [List.map_cons, List.sum_cons] at h
    have h1 : 0 ≤ (y - c) * (y - c) := mul_self_nonneg _
    have h2 : 0 ≤ ((ys.map fun x => (x - c) * (x - c)).sum) := by
      apply List.sum_nonneg
      intro x hx
      simp only [List.mem_map] at hx
      obtain ⟨q, _, rfl⟩ := hx
      exact mul_self_nonneg _
    have hy : (y - c) * (y - c) = 0 := by linarith
    have hys : (ys.map fun x => (x - c) * (x - c)).sum = 0 := by linarith
    intro x hx
    rcases List.mem_cons.mp hx with rfl | hx2
    · have := mul_self_eq_zero.mp hy
      linarith
    · exact ih hys x hx2

theorem winQ_three_of_eight (i : ℕ) (l : List ℚ) (h8 : 8 ≤ i + 1) :
    winQ 3 i l = List.drop 5 (winQ 8 i l) := by
  unfold winQ
  rw [List.drop_drop]
  congr 1
  omega

@[simp] theorem PF.nan_plt (x : PF) : PF.plt PF.nan x = false := by cases x <;> rfl

@[simp] theorem PF.plt_nan (x : PF) : PF.plt x PF.nan = false := by cases x <;> rfl

/-- If both strict first comparisons fail at the last index, the crossover is
none (both branch conditions of `triple_sma_cross` are false). -/
theorem triple_cross_none_of_false (df : List Candle) (hlen : ¬ df.length < 3)
    (hL : PF.plt ((sma (closes df) 8).getD (df.length - 1) PF.nan)
      ((sma (closes df) 3).getD (df.length - 1) PF.nan) = false)
    (hS : PF.plt ((sma (closes df) 3).getD (df.length - 1) PF.nan)
      ((sma (closes df) 8).getD (df.length - 1) PF.nan) = false) :
    triple_sma_cross df = none := by
  simp only [triple_sma_cross]
  rw [if_neg hlen, if_neg (by rw [hL]; simp), if_neg (by rw [hS]; simp)]

/-- If the Bollinger width of the close series is NaN at the last index, the
crossover cannot fire: either the history is too short (an SMA is NaN and the
strict comparisons fail) or the last eight closes are all zero (the SMAs tie
and the strict comparisons fail). -/
theorem width_nan_cross_none (df : List Candle)
    (h : (bollWidth (closes df)).getD (df.length - 1) PF.nan = PF.nan) :
    triple_sma_cross df = none := by
  by_cases hlen : df.length < 3
  · unfold triple_sma_cross
    rw [if_pos hlen]
  · have hn1 : df.length - 1 < df.length := by omega
    by_cases h8 : 8 ≤ df.length
    · -- full window: width NaN forces midline zero and zero deviation
      have hwin8 : (8 : ℕ) ≤ (df.length - 1) + 1 := by omega
      have hcl : (df.length - 1) < (df.map Candle.close).length := by simpa using hn1
      have hma := rollingMean_num 8 (df.length - 1) (df.map Candle.close) hcl hwin8
        (by omega)
      have hstd := rollingStd_num 8 (df.length - 1) (df.map Candle.close) hcl hwin8
        (by omega)
      rw [closes_eq_map_num] at h
      rw [bollWidth_getD _ _ (by simpa using hn1)] at h
      unfold bollMA at h
      rw [show BOLLINGER_PERIOD = 8 from rfl] at h
      rw [hma, hstd] at h
      set m := ((winQ 8 (df.length - 1) (df.map Candle.close)).sum) / (8 : ℕ) with hm
      set v := Rat.sqrt (varQ 8 (df.length - 1) (df.map Candle.close)) with hv
      rw [show BOLLINGER_STD = 2 from rfl] at h
      rw [PF.mul_num_num, PF.add_num_num, PF.sub_num_num, PF.sub_num_num] at h
      have hmz : m = 0 ∧ m + 2 * v - (m - 2 * v) = 0 := by
        by_cases hm0 : m = 0
        · refine ⟨hm0, ?_⟩
          by_contra hx
          rw [PF.div] at h
          rw [if_pos hm0] at h
          rcases lt_trichotomy 0 (m + 2 * v - (m - 2 * v)) with hp | hp | hp
          · rw [if_neg hx, if_pos hp] at h
            exact absurd h (by simp)
          · exact hx hp.symm
          · rw [if_neg hx, if_neg (by linarith)] at h
            exact absurd h (by simp)
        · exfalso
          rw [PF.div_num_num _ _ hm0] at h
          exact absurd h (by simp)
      have hv0 : v = 0 := by
        rcases hmz with ⟨_, hzero⟩
        linarith
      have hvar : varQ 8 (df.length - 1) (df.map Candle.close) = 0 := by
        have hnn := varQ_nonneg 8 (df.length - 1) (df.map Candle.close) (by omega)
        apply (ratSqrt_eq_zero_iff _ hnn).mp
        rw [← hv]
        exact hv0
      have hall : ∀ x ∈ winQ 8 (df.length - 1) (df.map Candle.close), x = m := by
        unfold varQ at hvar
        have hsum : ((winQ 8 (df.length - 1) (df.map Candle.close)).map fun x =>
            (x - (winQ 8 (df.length - 1) (df.map Candle.close)).sum / (8 : ℕ)) *
              (x - (winQ 8 (df.length - 1) (df.map Candle.close)).sum / (8 : ℕ))).sum = 0 := by
          rcases div_eq_zero_iff.mp hvar with hz | hz
          · exact hz
          · norm_num at hz
        exact sum_sq_zero _ _ hsum
      have hall0 : ∀ x ∈ winQ 8 (df.length - 1) (df.map Candle.close), x = 0 := by
        intro x hx
        rw [hall x hx, hmz.1]
      -- the three SMAs at the last index are all 0
      have hs8 : (sma (closes df) 8).getD (df.length - 1) PF.nan = PF.num 0 := by
        rw [sma_pf_getD df 8 _ (by omega) hn1, if_pos hwin8]
        unfold smaQ
        have : (winQ 8 (df.length - 1) (df.map Candle.close)).sum = 0 :=
          List.sum_eq_zero hall0
        unfold winQ at this
        rw [this]
        norm_num
      have hs3 : (sma (closes df) 3).getD (df.length - 1) PF.nan = PF.num 0 := by
        rw [sma_pf_getD df 3 _ (by omega) hn1, if_pos (by omega)]
        unfold smaQ
        have hsub : ∀ x ∈ winQ 3 (df.length - 1) (df.map Candle.close), x = 0 := by
          intro x hx
          rw [winQ_three_of_eight _ _ hwin8] at hx
          exact hall0 x (List.drop_subset _ _ hx)
        have : (winQ 3 (df.length - 1) (df.map Candle.close)).sum = 0 :=
          List.sum_eq_zero hsub
        unfold winQ at this
        rw [this]
        norm_num
      refine triple_cross_none_of_false df hlen ?_ ?_
      · rw [hs8, hs3]
        simp [PF.plt]
      · rw [hs8, hs3]
        simp [PF.plt]
    · -- short history: the SMA(8) at the last index is NaN
      have hs8 : (sma (closes df) 8).getD (df.length - 1) PF.nan = PF.nan := by
        rw [sma_pf_getD df 8 _ (by omega) hn1, if_neg (by omega)]
      refine triple_cross_none_of_false df hlen ?_ ?_
      · rw [hs8]
        simp
      · rw [hs8]
        simp

/-- After `fillna(0)`, the last adx cell of a nonempty frame is never NaN. -/
theorem adx_last_ne_nan (df : List Candle) (h : df ≠ []) :
    (adx df).getD (df.length - 1) PF.nan ≠ PF.nan := by
  have hn : 0 < df.length := List.length_pos.mpr h
  rw [adx_getD df _ (by omega)]
  cases (rollingMean ADX_PERIOD (dxS df)).getD (df.length - 1) PF.nan <;> simp

/-- C4: for every nonempty candle frame, `analyze_symbol` returns a record if
and only if the Bollinger width at the latest index is ≥ the minimum fraction
(default 0.015, inclusive), the ADX value at the latest index is ≥ the
minimum (default 15, inclusive), and the crossover fired; the returned record
carries the crossover side, the latest close as price, and the ADX value. -/
theorem C4_signal_iff (df : List Candle) (sig : Signal) (h : df ≠ []) :
    analyze_symbol df = some sig ↔
      (PF.ple (PF.num BOLLINGER_WIDTH_MIN_PCT)
          ((bollWidth (closes df)).getD (df.length - 1) PF.nan) = true
        ∧ PF.ple (PF.num ADX_MIN) ((adx df).getD (df.length - 1) PF.nan) = true
        ∧ ∃ side, triple_sma_cross df = some side ∧
            sig = ⟨side, (closes df).getD (df.length - 1) PF.nan,
              (adx df).getD (df.length - 1) PF.nan⟩) := by
  have hadx := adx_last_ne_nan df h
  simp only [analyze_symbol, bollWidth]
  by_cases h1 : PF.plt ((bollinger_bands (closes df)).2.2.getD (df.length - 1) PF.nan)
      (PF.num BOLLINGER_WIDTH_MIN_PCT) = true
  · rw [if_pos h1]
    simp only [reduceCtorEq, false_iff, not_and]
    intro hw
    rw [PF.ple_false_of_plt _ _ h1] at hw
    exact absurd hw (by simp)
  · have h1f : PF.plt ((bollinger_bands (closes df)).2.2.getD (df.length - 1) PF.nan)
        (PF.num BOLLINGER_WIDTH_MIN_PCT) = false := by
      cases hb : PF.plt ((bollinger_bands (closes df)).2.2.getD (df.length - 1) PF.nan)
          (PF.num BOLLINGER_WIDTH_MIN_PCT)
      · rfl
      · exact absurd hb h1
    rw [if_neg h1]
    by_cases h2 : PF.plt ((adx df).getD (df.length - 1) PF.nan) (PF.num ADX_MIN) = true
    · rw [if_pos h2]
      simp only [reduceCtorEq, false_iff, not_and]
      intro _ ha
      rw [PF.ple_false_of_plt _ _ h2] at ha
      exact absurd ha (by simp)
    · have h2f : PF.plt ((adx df).getD (df.length - 1) PF.nan) (PF.num ADX_MIN) = false := by
        cases hb : PF.plt ((adx df).getD (df.length - 1) PF.nan) (PF.num ADX_MIN)
        · rfl
        · exact absurd hb h2
      rw [if_neg h2]
      rcases hcross : triple_sma_cross df with _ | side
      · simp only [reduceCtorEq, false_iff, not_and]
        intro _ _ hex
        obtain ⟨side, hs, _⟩ := hex
        exact hs
      · have hwn : (bollinger_bands (closes df)).2.2.getD (df.length - 1) PF.nan ≠ PF.nan := by
          intro hx
          have := width_nan_cross_none df (by simpa [bollWidth] using hx)
          rw [this] at hcross
          exact absurd hcross (by simp)
        have hw : PF.ple (PF.num BOLLINGER_WIDTH_MIN_PCT)
            ((bollinger_bands (closes df)).2.2.getD (df.length - 1) PF.nan) = true :=
          (PF.not_plt_iff_ple _ _ hwn).mp h1f
        have ha : PF.ple (PF.num ADX_MIN) ((adx df).getD (df.length - 1) PF.nan) = true :=
          (PF.not_plt_iff_ple _ _ hadx).mp h2f
        constructor
        · intro hsome
          refine ⟨hw, ha, side, rfl, ?_⟩
          have := Option.some_injective _ hsome
          exact this.symm
        · rintro ⟨_, _, side2, hs2, hsig⟩
          have : side = side2 := Option.some_injective _ hs2
          subst this
          rw [hsig]

/-- Witness for C4 on the one-candle frame (both sides of the equivalence are
false there: no crossover is possible). -/
theorem C4_signal_iff_witness :
    analyze_symbol [candle0] = some ⟨Side.LONG, PF.num 0, PF.num 0⟩ ↔
      (PF.ple (PF.num BOLLINGER_WIDTH_MIN_PCT)
          ((bollWidth (closes [candle0])).getD ([candle0].length - 1) PF.nan) = true
        ∧ PF.ple (PF.num ADX_MIN) ((adx [candle0]).getD ([candle0].length - 1) PF.nan) = true
        ∧ ∃ side, triple_sma_cross [candle0] = some side ∧
            (⟨Side.LONG, PF.num 0, PF.num 0⟩ : Signal) =
              ⟨side, (closes [candle0]).getD ([candle0].length - 1) PF.nan,
                (adx [candle0]).getD ([candle0].length - 1) PF.nan⟩) :=
  C4_signal_iff [candle0] ⟨Side.LONG, PF.num 0, PF.num 0⟩ (by simp)

/-! ## Claim C2: module execution fails with NameError

Shallow embedding of the module's top level (src/main.py outside any
function): each statement either binds a global name (import / assignment /
function definition), calls a global name (the bare `load_dotenv()` call), or
performs one of the observable startup effects.  Python raises `NameError` at
the first lookup of an unbound name, aborting module execution there.
-/

/-- The global names bound or referenced at module top level. -/
inductive PyName : Type
  | os | sys | time | signalMod | loggingMod | requests | np | pd | datetime | pytz
  | load_dotenv
  | tTOKEN | tCHAT | pollSeconds | klinesLimit | binanceFapi
  | bollPeriod | bollStd | adxPeriod | bollWidthMin | adxMin | adxAccel
  | fixedSymbols | loggerName | tzSp | shutdownFlag
  | now_sp | now_sp_str | send_telegram | fetch_klines | smaFn | true_rangeFn
  | atrFn | bollinger_bandsFn | adxFn | triple_sma_crossFn | analyze_symbolFn
  | shutdown_handlerFn | mainFn
  deriving DecidableEq

/-- The observable startup effects of the module top level that the spec
talks about. -/
inductive PyEffect : Type
  | loggingConfigured
  | configCheck
  | sigtermRegistered
  | sigintRegistered
  | mainCalled
  deriving DecidableEq

/-- One top-level statement of the module. -/
inductive PyStmt : Type
  | importBind (n : PyName)
  | callGlobal (n : PyName)
  | assignName (n : PyName)
  | defineFun (n : PyName)
  | effect (e : PyEffect)

/-- Execute top-level statements: bindings extend the environment, a call of
an unbound name raises NameError (returning the effects performed so far and
the offending name), effects are recorded in order. -/
def runStmts (env : List PyName) (effs : List PyEffect) :
    List PyStmt → List PyEffect × Option PyName
  | [] => (effs.reverse, none)
  | PyStmt.importBind n :: rest => runStmts (n :: env) effs rest
  | PyStmt.callGlobal n :: rest =>
    if n ∈ env then runStmts env effs rest else (effs.reverse, some n)
  | PyStmt.assignName n :: rest => runStmts (n :: env) effs rest
  | PyStmt.defineFun n :: rest => runStmts (n :: env) effs rest
  | PyStmt.effect e :: rest => runStmts env (e :: effs) rest

/-- The top-level statements of src/main.py in source order: the ten imports;
the bare `load_dotenv()` call (line 27); the environment-derived assignments;
logging setup; the credential check that exits; timezone; the function
definitions; the shutdown flag; the two signal-handler registrations; and the
`main()` call under `__name__ == "__main__"`. -/
def mainModuleStmts : List PyStmt := [
  PyStmt.importBind PyName.os, PyStmt.importBind PyName.sys,
  PyStmt.importBind PyName.time, PyStmt.importBind PyName.signalMod,
  PyStmt.importBind PyName.loggingMod, PyStmt.importBind PyName.requests,
  PyStmt.importBind PyName.np, PyStmt.importBind PyName.pd,
  PyStmt.importBind PyName.datetime, PyStmt.importBind PyName.pytz,
  PyStmt.callGlobal PyName.load_dotenv,
  PyStmt.assignName PyName.tTOKEN, PyStmt.assignName PyName.tCHAT,
  PyStmt.assignName PyName.pollSeconds, PyStmt.assignName PyName.klinesLimit,
  PyStmt.assignName PyName.binanceFapi,
  PyStmt.assignName PyName.bollPeriod, PyStmt.assignName PyName.bollStd,
  PyStmt.assignName PyName.adxPeriod, PyStmt.assignName PyName.bollWidthMin,
  PyStmt.assignName PyName.adxMin, PyStmt.assignName PyName.adxAccel,
  PyStmt.assignName PyName.fixedSymbols,
  PyStmt.effect PyEffect.loggingConfigured, PyStmt.assignName PyName.loggerName,
  PyStmt.effect PyEffect.configCheck, PyStmt.assignName PyName.tzSp,
  PyStmt.defineFun PyName.now_sp, PyStmt.defineFun PyName.now_sp_str,
  PyStmt.defineFun PyName.send_telegram, PyStmt.defineFun PyName.fetch_klines,
  PyStmt.defineFun PyName.smaFn, PyStmt.defineFun PyName.true_rangeFn,
  PyStmt.defineFun PyName.atrFn, PyStmt.defineFun PyName.bollinger_bandsFn,
  PyStmt.defineFun PyName.adxFn, PyStmt.defineFun PyName.triple_sma_crossFn,
  PyStmt.defineFun PyName.analyze_symbolFn,
  PyStmt.assignName PyName.shutdownFlag, PyStmt.defineFun PyName.shutdown_handlerFn,
  PyStmt.effect PyEffect.sigtermRegistered, PyStmt.effect PyEffect.sigintRegistered,
  PyStmt.defineFun PyName.mainFn, PyStmt.effect PyEffect.mainCalled]

/-- C2: executing the module always raises NameError on `load_dotenv`
(imported nowhere, defined nowhere, not a builtin): module initialization
stops at line 27 with zero observable startup effects — no logging setup, no
credential check/exit, no handler registration, and `main()` (startup
notification and scan loop) is never reached, in any environment. -/
theorem C2_module_init_name_error :
    runStmts [] [] mainModuleStmts = ([], some PyName.load_dotenv) := by
  decide

/-! ## Claim C1: per-instrument failure isolation in a cycle

Model of one pass of the `for symbol in FIXED_SYMBOLS` loop inside `main()`:
the whole pass runs inside a single try/except, so an exception raised while
analyzing one instrument is caught at the cycle boundary — the remaining
instruments of that pass are skipped (the loop itself survives to the next
cycle).  `f` gives each instrument's `analyze_symbol` outcome.
-/

/-- Outcome of `analyze_symbol` for one instrument: the fetch or indicator
computation raises, or it returns `None`, or it returns a signal record. -/
inductive SymbolOutcome : Type
  | raises : SymbolOutcome
  | noSignal : SymbolOutcome
  | signals : Signal → SymbolOutcome
  deriving DecidableEq

/-- Run one cycle pass over the instrument list (instruments as numbers):
returns the (instrument, signal) notifications sent, in order, and whether an
exception escaped to the cycle-level `except` handler. -/
def cycleNotifications (f : ℕ → SymbolOutcome) : List ℕ → List (ℕ × Signal) × Bool
  | [] => ([], false)
  | s :: rest =>
    match f s with
    | SymbolOutcome.raises => ([], true)
    | SymbolOutcome.noSignal => cycleNotifications f rest
    | SymbolOutcome.signals sig =>
      ((s, sig) :: (cycleNotifications f rest).1, (cycleNotifications f rest).2)

/-- Outcome function for the counterexample: instrument 0 raises, every other
instrument produces a signal. -/
def c1f : ℕ → SymbolOutcome :=
  fun s => if s = 0 then SymbolOutcome.raises
    else SymbolOutcome.signals ⟨Side.LONG, PF.num 1, PF.num 20⟩

/-- Counterexample for C1 as stated: with instruments [0, 1], instrument 0's
fetch raises while instrument 1 has a detected signal, yet the cycle sends no
notification at all — instrument 1's signal is lost, so a failure does abort
the rest of the cycle. -/
theorem C1_counterexample :
    c1f 1 = SymbolOutcome.signals ⟨Side.LONG, PF.num 1, PF.num 20⟩ ∧
      cycleNotifications c1f [0, 1] = ([], true) := by
  constructor
  · rfl
  · rfl

/-- C1 (amended): when analyzing an instrument raises, the failure is caught
(and logged) at the cycle boundary, so the loop survives, but the remaining
instruments of that cycle pass are skipped: the notifications are exactly
those of the error-free prefix before the failing instrument. -/
theorem C1_cycle_isolation (f : ℕ → SymbolOutcome) (pre : List ℕ) (x : ℕ)
    (post : List ℕ) (hpre : ∀ s ∈ pre, f s ≠ SymbolOutcome.raises)
    (hx : f x = SymbolOutcome.raises) :
    cycleNotifications f (pre ++ x :: post) = ((cycleNotifications f pre).1, true) := by
  induction pre with
  | nil => simp [cycleNotifications, hx]
  | cons a as ih =>
    have ha := hpre a (List.mem_cons_self a as)
    have ihr := ih (fun s hs => hpre s (List.mem_cons_of_mem _ hs))
    rcases hfa : f a with _ | _ | sig
    · exact absurd hfa ha
    · simp only [List.cons_append, cycleNotifications, hfa]
      exact ihr
    · simp only [List.cons_append, cycleNotifications, hfa, List.append_eq]
      rw [ihr]

/-- Witness for C1 (amended): prefix [5] (signals), failing instrument 0,
skipped suffix [1]. -/
theorem C1_cycle_isolation_witness :
    cycleNotifications c1f ([5] ++ 0 :: [1]) = ((cycleNotifications c1f [5]).1, true) :=
  C1_cycle_isolation c1f [5] 0 [1] (by decide) (by decide)

/-! ## Claim C7: cancellation semantics of the scan loop

Model of `main()` plus `shutdown_handler`: the loop body runs whole cycles
and sleeps; the process-wide flag `SHUTDOWN` is read only by the `while not
SHUTDOWN` check between iterations.  A delivered signal runs the handler —
which sets the flag and sends the stop notification — without raising, so it
never aborts the in-flight cycle (PEP 475: interrupted sleeps and calls are
resumed).  `sigCycle n` / `sigSleep n` say whether a signal arrives during
cycle n / during the sleep after cycle n; `fuel` bounds the unrolling of the
unbounded loop.
-/

/-- Observable events of the scanner process. -/
inductive LoopEv : Type
  | startNote : LoopEv
  | cycleStart : ℕ → LoopEv
  | cycleEnd : ℕ → LoopEv
  | stopNote : LoopEv
  | exited : LoopEv
  deriving DecidableEq

/-- The while-loop of `main()`: check the flag; if clear, run cycle n to
completion (a mid-cycle signal emits the stop notification from the handler
but does not abort the cycle), then sleep (a signal during the sleep likewise
runs the handler), then iterate with the possibly-updated flag. -/
def loopGo (sc ss : ℕ → Bool) : ℕ → Bool → ℕ → List LoopEv
  | _, _, 0 => []
  | n, flag, fuel + 1 =>
    if flag then [LoopEv.exited]
    else
      [LoopEv.cycleStart n] ++ (if sc n then [LoopEv.stopNote] else []) ++
        [LoopEv.cycleEnd n] ++ (if ss n then [LoopEv.stopNote] else []) ++
        loopGo sc ss (n + 1) (sc n || ss n) fuel

/-- `main()`: startup notification, warm-up sleep (during which a signal may
arrive), then the loop. -/
def scannerMain (sigWarm : Bool) (sc ss : ℕ → Bool) (fuel : ℕ) : List LoopEv :=
  LoopEv.startNote :: ((if sigWarm then [LoopEv.stopNote] else []) ++
    loopGo sc ss 0 sigWarm fuel)

/-- The event trace of k complete, signal-free cycles starting at cycle s. -/
def cyclesTrace : ℕ → ℕ → List LoopEv
  | _, 0 => []
  | s, k + 1 => LoopEv.cycleStart s :: LoopEv.cycleEnd s :: cyclesTrace (s + 1) k

theorem loopGo_clean (sc ss : ℕ → Bool) (k : ℕ) :
    ∀ (start fuel : ℕ),
      (∀ m, start ≤ m → m < start + k → sc m = false ∧ ss m = false) →
      loopGo sc ss start false (k + fuel) =
        cyclesTrace start k ++ loopGo sc ss (start + k) false fuel := by
  induction k with
  | zero =>
    intro start fuel _
    simp [cyclesTrace]
  | succ k ih =>
    intro start fuel h
    have hsc := (h start le_rfl (by omega)).1
    have hss := (h start le_rfl (by omega)).2
    have hfu : k + 1 + fuel = (k + fuel) + 1 := by omega
    rw [hfu]
    rw [loopGo, if_neg (by simp), hsc, hss]
    have hrec := ih (start + 1) fuel (fun m h1 h2 => h m (by omega) (by omega))
    rw [show (false || false) = false from rfl, hrec]
    rw [cyclesTrace]
    have h1 : start + (k + 1) = start + 1 + k := by omega
    rw [h1]
    simp

theorem loopGo_start_end (sc ss : ℕ → Bool) :
    ∀ (fuel start : ℕ) (flag : Bool) (k : ℕ),
      LoopEv.cycleStart k ∈ loopGo sc ss start flag fuel →
      LoopEv.cycleEnd k ∈ loopGo sc ss start flag fuel := by
  intro fuel
  induction fuel with
  | zero =>
    intro start flag k h
    simp [loopGo] at h
  | succ fuel ih =>
    intro start flag k h
    cases flag with
    | true =>
      rw [loopGo, if_pos rfl] at h
      simp at h
    | false =>
      rw [loopGo, if_neg (by simp)] at h
      rw [loopGo, if_neg (by simp)]
      by_cases hk : k = start
      · subst hk
        simp
      · have hmem : LoopEv.cycleStart k ∈
            loopGo sc ss (start + 1) (sc start || ss start) fuel := by
          cases hsc : sc start <;> cases hss : ss start <;>
            rw [hsc, hss] at h <;> simp at h <;> tauto
        have hend := ih (start + 1) (sc start || ss start) k hmem
        simp [hend]

theorem cyclesTrace_concat (s k : ℕ) :
    cyclesTrace s (k + 1) =
      cyclesTrace s k ++ [LoopEv.cycleStart (s + k), LoopEv.cycleEnd (s + k)] := by
  induction k generalizing s with
  | zero => simp [cyclesTrace]
  | succ k ih =>
    rw [cyclesTrace, ih (s + 1), cyclesTrace]
    have h1 : s + (k + 1) = s + 1 + k := by omega
    rw [h1]
    simp

/-- C7: if the cancellation flag is set by a signal delivered during the
sleep after cycle n (no earlier signal), the scanner runs cycles 0..n to
completion, the handler sends the stop notification, and the loop exits at
the next between-iteration check — no further cycle is started.  Moreover,
under every schedule, any cycle that starts also ends: cancellation never
aborts an in-flight cycle. -/
theorem C7_cancellation (sc ss : ℕ → Bool) (n fuel : ℕ)
    (hq : ∀ m, m ≤ n → sc m = false) (hs : ∀ m, m < n → ss m = false)
    (hn : ss n = true) (hf : n + 2 ≤ fuel) :
    scannerMain false sc ss fuel =
      LoopEv.startNote :: (cyclesTrace 0 (n + 1) ++ [LoopEv.stopNote, LoopEv.exited])
    ∧ (∀ (sw : Bool) (sc2 ss2 : ℕ → Bool) (f2 k : ℕ),
        LoopEv.cycleStart k ∈ scannerMain sw sc2 ss2 f2 →
        LoopEv.cycleEnd k ∈ scannerMain sw sc2 ss2 f2) := by
  constructor
  · have e1 : loopGo sc ss 0 false fuel =
        cyclesTrace 0 n ++ loopGo sc ss n false (fuel - n) := by
      conv_lhs => rw [show fuel = n + (fuel - n) from by omega]
      rw [loopGo_clean sc ss n 0 (fuel - n)
        (fun m h1 h2 => ⟨hq m (by omega), hs m (by omega)⟩)]
      rw [show (0 + n) = n from by omega]
    have e3 : loopGo sc ss (n + 1) true (fuel - n - 2 + 1) = [LoopEv.exited] := by
      rw [loopGo, if_pos rfl]
    have e2 : loopGo sc ss n false (fuel - n) =
        LoopEv.cycleStart n :: LoopEv.cycleEnd n :: LoopEv.stopNote :: [LoopEv.exited] := by
      conv_lhs => rw [show fuel - n = (fuel - n - 2 + 1) + 1 from by omega]
      rw [loopGo, if_neg (by simp), hq n le_rfl, hn]
      rw [show (false || true) = true from rfl, e3]
      simp
    unfold scannerMain
    rw [e1, e2, cyclesTrace_concat 0 n]
    simp
  · intro sw sc2 ss2 f2 k hmem
    have h1 : LoopEv.cycleStart k ∈ loopGo sc2 ss2 0 sw f2 := by
      cases sw <;> simp [scannerMain] at hmem <;> tauto
    have h2 := loopGo_start_end sc2 ss2 f2 0 sw k h1
    cases sw <;> simp [scannerMain] <;> tauto

/-- Signal schedule for the C7 witness: the only signal arrives during the
sleep after cycle 1. -/
def c7ss : ℕ → Bool := fun m => decide (m = 1)

/-- Witness for C7: no signal during warm-up or cycles, a signal during the
sleep after cycle 1, fuel 3. -/
theorem C7_cancellation_witness :
    scannerMain false (fun _ => false) c7ss 3 =
      LoopEv.startNote :: (cyclesTrace 0 2 ++ [LoopEv.stopNote, LoopEv.exited])
    ∧ (∀ (sw : Bool) (sc2 ss2 : ℕ → Bool) (f2 k : ℕ),
        LoopEv.cycleStart k ∈ scannerMain sw sc2 ss2 f2 →
        LoopEv.cycleEnd k ∈ scannerMain sw sc2 ss2 f2) :=
  C7_cancellation (fun _ => false) c7ss 1 3 (fun _ _ => rfl)
    (fun m hm => by
      have h0 : m = 0 := by omega
      subst h0
      rfl)
    rfl (by omega)
